import Mathlib

set_option maxRecDepth 40000

/-!
Verification development for the deal-selection pipeline in `src/index.js`.

The JavaScript source is shallowly embedded: strings are modelled as
`List Char` (UTF-16 code units of the realistic inputs coincide with
characters), numbers as `ℚ` where the code manipulates parsed prices and
token counts, and as `ℝ` for the score, which uses `Math.log10`.  The three
global regex replacements inside `cleanTitle` are embedded as left-to-right
scanners that mirror the semantics of `String.prototype.replace` with a
global regex: find the leftmost match, drop it, continue after the match.
-/

/-! ## Character classes (ASCII, matching the JS regex classes `\d`, `\w`, `\s`) -/

def isDigitC (c : Char) : Bool := c.isDigit

def isWordChar (c : Char) : Bool := c.isAlpha || c.isDigit || c = '_'

def jsWs (c : Char) : Bool :=
  c = ' ' || c = '\t' || c = '\n' || c = '\r' || c = '\x0b' || c = '\x0c'

/-- ASCII lowercasing, as performed on the relevant characters by
`String.prototype.toLowerCase` and by case-insensitive regex matching. -/
def lowerC (c : Char) : Char :=
  match c with
  | 'A' => 'a' | 'B' => 'b' | 'C' => 'c' | 'D' => 'd' | 'E' => 'e' | 'F' => 'f'
  | 'G' => 'g' | 'H' => 'h' | 'I' => 'i' | 'J' => 'j' | 'K' => 'k' | 'L' => 'l'
  | 'M' => 'm' | 'N' => 'n' | 'O' => 'o' | 'P' => 'p' | 'Q' => 'q' | 'R' => 'r'
  | 'S' => 's' | 'T' => 't' | 'U' => 'u' | 'V' => 'v' | 'W' => 'w' | 'X' => 'x'
  | 'Y' => 'y' | 'Z' => 'z'
  | c => c

/-! ## First pass of `cleanTitle`: `.replace(/\$?\d+(\.\d+)?/g, "")` -/

/-- Consume the longest prefix matching `\d+(\.\d+)?`. -/
def dropNum (l : List Char) : List Char :=
  match l.dropWhile isDigitC with
  | '.' :: d :: r2 => if isDigitC d then List.dropWhile isDigitC (d :: r2) else '.' :: d :: r2
  | r => r

lemma length_dw_le (p : Char → Bool) (l : List Char) : (l.dropWhile p).length ≤ l.length := by
  induction l with
  | nil => simp [List.dropWhile]
  | cons c cs ih =>
    rw [List.dropWhile_cons]
    split
    · exact le_trans ih (by simp)
    · simp

lemma dropNum_le_dropWhile (l : List Char) :
    (dropNum l).length ≤ (l.dropWhile isDigitC).length := by
  unfold dropNum
  split
  · rename_i d r2 heq
    split
    · have h2 : (List.dropWhile isDigitC (d :: r2)).length ≤ (d :: r2).length :=
        length_dw_le _ _
      rw [heq]
      simp only [List.length_cons] at h2 ⊢
      omega
    · rw [heq]
  · exact le_rfl

lemma dropNum_le (l : List Char) : (dropNum l).length ≤ l.length :=
  le_trans (dropNum_le_dropWhile l) (length_dw_le _ _)

lemma dropNum_lt_of_digit {c : Char} {cs : List Char} (h : isDigitC c = true) :
    (dropNum (c :: cs)).length < (c :: cs).length := by
  have h1 := dropNum_le_dropWhile (c :: cs)
  rw [List.dropWhile_cons_of_pos h] at h1
  have h2 := length_dw_le isDigitC cs
  simp only [List.length_cons]
  omega

lemma dropNum_lt_cons (c : Char) (cs : List Char) : (dropNum cs).length < (c :: cs).length := by
  have := dropNum_le cs
  simp only [List.length_cons]
  omega

lemma dropWhile_lt_cons (p : Char → Bool) (c : Char) (cs : List Char) :
    (cs.dropWhile p).length < (c :: cs).length := by
  have := length_dw_le p cs
  simp only [List.length_cons]
  omega

lemma dropWhile_lt_of_pos {p : Char → Bool} {c : Char} {cs : List Char} (h : p c = true) :
    ((c :: cs).dropWhile p).length < (c :: cs).length := by
  rw [List.dropWhile_cons_of_pos h]
  exact dropWhile_lt_cons p c cs

/-- The global replacement of `\$?\d+(\.\d+)?` by the empty string:
scan left to right; at a digit, or at `$` immediately followed by a digit,
drop the maximal price token and continue after it. -/
def priceStrip (l : List Char) : List Char :=
  match l with
  | [] => []
  | c :: cs =>
    if isDigitC c then priceStrip (dropNum (c :: cs))
    else if c = '$' then
      match cs with
      | [] => ['$']
      | d :: ds =>
        if isDigitC d then priceStrip (dropNum (d :: ds)) else '$' :: priceStrip (d :: ds)
    else c :: priceStrip cs
termination_by l.length
decreasing_by
all_goals first
  | exact dropNum_lt_of_digit (by assumption)
  | exact dropNum_lt_cons _ _
  | (simp only [List.length_cons]; omega)

/-! ## Second pass: `.replace(/\b(Free|Deal|Save|Off|Coupon)\b/gi, "")` -/

def wFree : List Char := ['f', 'r', 'e', 'e']
def wDeal : List Char := ['d', 'e', 'a', 'l']
def wSave : List Char := ['s', 'a', 'v', 'e']
def wOff : List Char := ['o', 'f', 'f']
def wCoupon : List Char := ['c', 'o', 'u', 'p', 'o', 'n']

def promoWords : List (List Char) := [wFree, wDeal, wSave, wOff, wCoupon]

/-- Case-insensitive matching of a (lowercase) pattern word against a prefix
of the input; returns the remainder on success. -/
def ciStrip : List Char → List Char → Option (List Char)
  | [], l => some l
  | _ :: _, [] => none
  | y :: w, c :: l => if lowerC c = y then ciStrip w l else none

/-- The `\b` assertion after a match: end of input or a non-word character. -/
def boundOk : List Char → Bool
  | [] => true
  | c :: _ => !(isWordChar c)

/-- Try to match one alternative with its trailing word boundary. -/
def wordAt (w l : List Char) : Option (List Char) :=
  match ciStrip w l with
  | none => none
  | some r => if boundOk r then some r else none

/-- Try the five alternatives in the order they appear in the regex. -/
def findPromo (l : List Char) : Option (List Char) :=
  match wordAt wFree l with
  | some r => some r
  | none =>
  match wordAt wDeal l with
  | some r => some r
  | none =>
  match wordAt wSave l with
  | some r => some r
  | none =>
  match wordAt wOff l with
  | some r => some r
  | none => wordAt wCoupon l

lemma ciStrip_length {w l r : List Char} (h : ciStrip w l = some r) :
    r.length + w.length = l.length := by
  induction w generalizing l r with
  | nil =>
    simp only [ciStrip, Option.some.injEq] at h
    simp [← h]
  | cons y w ih =>
    match l with
    | [] => simp [ciStrip] at h
    | c :: l =>
      simp only [ciStrip] at h
      split at h
      · have := ih h
        simp only [List.length_cons]
        omega
      · exact absurd h (by simp)

lemma wordAt_length {w l r : List Char} (hw : w ≠ []) (h : wordAt w l = some r) :
    r.length < l.length := by
  unfold wordAt at h
  split at h
  · exact absurd h (by simp)
  · rename_i r0 heq
    split at h
    · cases h
      have := ciStrip_length heq
      have hwl : 0 < w.length := List.length_pos.mpr hw
      omega
    · exact absurd h (by simp)

lemma findPromo_length {l r : List Char} (h : findPromo l = some r) :
    r.length < l.length := by
  unfold findPromo at h
  repeat' split at h
  all_goals first
    | (cases h; rename_i heq; exact wordAt_length (by simp [wFree, wDeal, wSave, wOff, wCoupon]) heq)
    | (exact wordAt_length (by simp [wFree, wDeal, wSave, wOff, wCoupon]) h)
    | (exact absurd h (by simp))

/-- The global replacement of `\b(Free|Deal|Save|Off|Coupon)\b/gi` by the
empty string.  `prevWord` records whether the previous character of the
original string is a word character, which decides the leading `\b`. -/
def promoStripAux (prevWord : Bool) (l : List Char) : List Char :=
  match l with
  | [] => []
  | c :: cs =>
    if prevWord then c :: promoStripAux (isWordChar c) cs
    else
      match h : findPromo (c :: cs) with
      | some rest => promoStripAux true rest
      | none => c :: promoStripAux (isWordChar c) cs
termination_by l.length
decreasing_by
· simp only [List.length_cons]; omega
· have := findPromo_length h
  simpa using this
· simp only [List.length_cons]; omega

def promoStrip (l : List Char) : List Char := promoStripAux false l

/-! ## Third pass and trim: `.replace(/\s+/g, " ").trim()` -/

def collapseWs (l : List Char) : List Char :=
  match l with
  | [] => []
  | c :: cs =>
    if jsWs c then ' ' :: collapseWs (cs.dropWhile jsWs)
    else c :: collapseWs cs
termination_by l.length
decreasing_by
all_goals first
  | exact dropWhile_lt_cons _ _ _
  | (simp only [List.length_cons]; omega)

def trimRight : List Char → List Char
  | [] => []
  | c :: cs =>
    match trimRight cs with
    | [] => if jsWs c then [] else [c]
    | r :: rs => c :: r :: rs

def trimWs (l : List Char) : List Char := trimRight (l.dropWhile jsWs)

/-- `cleanTitle` from `src/index.js` on character lists. -/
def cleanList (l : List Char) : List Char :=
  trimWs (collapseWs (promoStrip (priceStrip l)))

def cleanTitle (s : String) : String := String.mk (cleanList s.data)

/-! ## Tokenization and `tokenOverlapScore` -/

/-- The maximal runs of word characters of a string, in order. -/
def wordRuns (l : List Char) : List (List Char) :=
  match l with
  | [] => []
  | c :: cs =>
    if isWordChar c then
      ((c :: cs).takeWhile isWordChar) :: wordRuns ((c :: cs).dropWhile isWordChar)
    else wordRuns cs
termination_by l.length
decreasing_by
all_goals first
  | exact dropWhile_lt_of_pos (by assumption)
  | (simp only [List.length_cons]; omega)

/-- Tokens of `x.toLowerCase().split(/\W+/).filter(t => t.length > 2)`. -/
def tokensOf (s : String) : List (List Char) :=
  (wordRuns (s.data.map lowerC)).filter (fun t => 2 < t.length)

/-- `tokenOverlapScore` from `src/index.js`. -/
def tokenOverlapScore (a b : String) : ℚ :=
  let A := (tokensOf a).toFinset
  let B := (tokensOf b).toFinset
  if A.card = 0 ∨ B.card = 0 then 0
  else ((A ∩ B).card : ℚ) / (max A.card B.card : ℚ)

/-! ## `parseMoney`: strip all non-digit/non-dot characters, then JS `Number` -/

def natDigits (l : List Char) : ℕ := l.foldl (fun n c => 10 * n + (c.toNat - 48)) 0

/-- Value of a string of digits with at most one decimal point, as read by
JS `Number`. -/
def decValue (l : List Char) : ℚ :=
  let ip := l.takeWhile (fun c => c != '.')
  match l.dropWhile (fun c => c != '.') with
  | [] => (natDigits ip : ℚ)
  | _ :: fp => (natDigits ip : ℚ) + (natDigits fp : ℚ) / (10 : ℚ) ^ fp.length

def moneyChars (s : String) : List Char := s.data.filter (fun c => isDigitC c || c == '.')

/-- JS `Number` on a string containing only digits and dots: the empty
string is 0; two or more dots, or a lone run of dots, is NaN (`none`). -/
def jsNumber (l : List Char) : Option ℚ :=
  if l = [] then some 0
  else if 2 ≤ (l.filter (fun c => c == '.')).length then none
  else if l.all (fun c => c == '.') then none
  else some (decValue l)

def parseMoney (s : String) : Option ℚ := jsNumber (moneyChars s)

/-! ## Candidates -/

structure RawItem where
  titleDV : Option String := none
  asinR : Option String := none
  urlR : Option String := none
  priceDispR : Option String := none
  basisDispR : Option String := none
  salesRankR : Option ℚ := none
  featuresR : Option (List String) := none
  imgR : Option String := none
deriving DecidableEq

structure Candidate where
  asin : String
  title : String
  url : String
  priceDisp : String
  basisDisp : String
  discountPct : Option ℤ
  websiteRank : Option ℚ
  features : List String
  img : String
  matchScore : ℚ
  sourceTitle : String
deriving DecidableEq

/-- JS `Math.round`: round half toward positive infinity. -/
def jsRound (q : ℚ) : ℤ := ⌊q + 1 / 2⌋

/-- `buildCandidate` from `src/index.js`.  The `||` defaults become `getD`;
the truthiness tests on the parsed prices and the sales rank keep the
source's behaviour on `0`. -/
def buildCandidate (item : RawItem) (dealTitle : String) : Candidate :=
  let title := item.titleDV.getD ""
  let asin := item.asinR.getD ""
  let url := item.urlR.getD ""
  let priceDisp := item.priceDispR.getD ""
  let basisDisp := item.basisDispR.getD ""
  let price := parseMoney priceDisp
  let basis := parseMoney basisDisp
  let websiteRank : Option ℚ :=
    match item.salesRankR with
    | none => none
    | some r => if r = 0 then none else some r
  let discountPct : Option ℤ :=
    match price, basis with
    | some p, some b =>
      if p ≠ 0 ∧ b ≠ 0 ∧ p < b then some (jsRound ((b - p) / b * 100)) else none
    | _, _ => none
  { asin := asin, title := title, url := url, priceDisp := priceDisp, basisDisp := basisDisp,
    discountPct := discountPct, websiteRank := websiteRank,
    features := (item.featuresR.getD []).take 2, img := item.imgR.getD "",
    matchScore := tokenOverlapScore (cleanTitle dealTitle) title, sourceTitle := dealTitle }

/-! ## `scoreCandidate` -/

noncomputable def scoreCandidate (c : Candidate) : ℝ :=
  ((c.matchScore : ℚ) : ℝ) * 100 + ((c.discountPct.getD 0 : ℤ) : ℝ) * 2 +
    match c.websiteRank with
    | none => 0
    | some r => if r = 0 then 0 else max 0 (100 - Real.logb 10 (r : ℝ) * 20)

/-! ## The stable descending sort of `candidates.sort((a, b) => score(b) - score(a))` -/

noncomputable def insertD (c : Candidate) : List Candidate → List Candidate
  | [] => [c]
  | d :: ds => if scoreCandidate d ≤ scoreCandidate c then c :: d :: ds else d :: insertD c ds

noncomputable def sortD : List Candidate → List Candidate
  | [] => []
  | c :: cs => insertD c (sortD cs)

/-- The first element of maximal score, specified directly. -/
noncomputable def firstMax : List Candidate → Option Candidate
  | [] => none
  | c :: cs =>
    match firstMax cs with
    | none => some c
    | some d => if scoreCandidate c < scoreCandidate d then some d else some c

/-! ## `fit280` -/

/-- The replacement of `/\s+\S*$/` by the empty string: drop the final
whitespace run together with everything after it; no-op when the string
contains no whitespace. -/
def stripTail (l : List Char) : List Char :=
  match l.reverse.dropWhile (fun c => !(jsWs c)) with
  | [] => l
  | r1 => (r1.dropWhile jsWs).reverse

def threeDots : String := String.mk ['.', '.', '.']

def fit280 (s : String) : String :=
  if s.length ≤ 280 then s else String.mk (stripTail (s.data.take 277)) ++ threeDots

/-! ## History state -/

structure HistoryState where
  usedAsins : List String
  usedTitles : List String
deriving DecidableEq

/-- JS `arr.slice(-n)`: the last `n` elements (all of them when shorter). -/
def lastN (n : ℕ) (l : List String) : List String := l.drop (l.length - n)

/-- Lines 320-323 of `src/index.js`: push, then truncate both lists to the
most recent 500 entries. -/
def recordUse (st : HistoryState) (asin title : String) : HistoryState :=
  { usedAsins := lastN 500 (st.usedAsins ++ [asin]),
    usedTitles := lastN 500 (st.usedTitles ++ [title]) }

/-! ## The run (`main` from `src/index.js`) -/

structure DealItem where
  title : String
  link : String
  pubDate : String
deriving DecidableEq

/-- External collaborators and configuration of one run.  Feed fetching,
catalog search, text generation and publishing are sequential blocking
calls that either return or fail; `Except` models the outcome. -/
structure Env where
  feedResults : List (Except String (List DealItem))
  maxFeedItems : ℕ
  maxCandidates : ℕ
  merchantTest : String → Bool
  search : String → Except String (List RawItem)
  genPost : Candidate → Except String String
  publish : String → Except String ℕ
  dryRun : Bool
  disclosureHashtag : String

/-- Per-feed fetch, each truncated to `MAX_FEED_ITEMS`; failed feeds are
skipped. -/
def gatherItems (e : Env) : List DealItem :=
  e.feedResults.foldl
    (fun acc r =>
      match r with
      | .ok its => acc ++ its.take e.maxFeedItems
      | .error _ => acc) []

/-- Merchant filter, `usedTitles` dedup, and the `MAX_CANDIDATES` cap. -/
def freshItems (e : Env) (st : HistoryState) : List DealItem :=
  ((gatherItems e).filter
      (fun it => e.merchantTest it.title && !(st.usedTitles.contains it.title))).take
    e.maxCandidates

/-- Branch on the outcome of one catalog-search call: a failure is caught
and the accumulator is kept, a success is processed. -/
def onSearch (r : Except String (List RawItem)) (acc : List Candidate)
    (f : List RawItem → List Candidate) : List Candidate :=
  match r with
  | .error _ => acc
  | .ok found => f found

/-- The candidate-accumulation loop (lines 276-294): per item, normalize the
title, skip when empty, search, skip search failures, and push each built
candidate that passes the four `continue` guards. -/
def candidatesFor (e : Env) (st : HistoryState) (items : List DealItem) : List Candidate :=
  items.foldl
    (fun acc d =>
      if cleanTitle d.title = "" then acc
      else
        onSearch (e.search (cleanTitle d.title)) acc (fun found =>
          found.foldl
            (fun acc2 it =>
              if (buildCandidate it d.title).asin = "" then acc2
              else if (buildCandidate it d.title).url = "" then acc2
              else if st.usedAsins.contains (buildCandidate it d.title).asin then acc2
              else if (buildCandidate it d.title).matchScore < 1 / 4 then acc2
              else acc2 ++ [buildCandidate it d.title]) acc)) []

structure RunOutcome where
  finalText : Option String
  saved : Option HistoryState
  pickedC : Option Candidate

/-- One invocation of `main`: `finalText` is the assembled post when the run
got that far, `saved` is the history state written by `saveState` (or
`none` when the run ends without writing), `pickedC` the selected
candidate. -/
noncomputable def runMain (e : Env) (st : HistoryState) : RunOutcome :=
  match freshItems e st with
  | [] => ⟨none, none, none⟩
  | _ :: _ =>
    match candidatesFor e st (freshItems e st) with
    | [] => ⟨none, none, none⟩
    | c0 :: cs0 =>
      match sortD (c0 :: cs0) with
      | [] => ⟨none, none, none⟩
      | picked :: _ =>
        match e.genPost picked with
        | .error _ => ⟨none, none, some picked⟩
        | .ok base =>
          let txt := fit280 (base ++ " " ++ picked.url ++ " " ++ e.disclosureHashtag)
          if e.dryRun then ⟨some txt, none, some picked⟩
          else
            match e.publish txt with
            | .error _ => ⟨some txt, none, some picked⟩
            | .ok _ =>
              ⟨some txt,
               some (recordUse st picked.asin
                  (if picked.sourceTitle = "" then picked.title else picked.sourceTitle)),
               some picked⟩

/-! ## Substring occurrence (for the length-fitting claims) -/

def headMatches : List Char → List Char → Bool
  | [], _ => true
  | _ :: _, [] => false
  | a :: as, b :: bs => a == b && headMatches as bs

def occursIn (p l : List Char) : Bool :=
  match l with
  | [] => p.isEmpty
  | _ :: bs => headMatches p l || occursIn p bs

/-! ## Concrete strings used in the scenario claims -/

def titleEcho : String := "Amazon Echo Dot $19.99 Deal!!"
def catalogEcho : String := "Echo Dot (5th Gen) smart speaker"
def cleanEcho : String := "Amazon Echo Dot !!"

/-! ## C3: the `tokenOverlapScore` contract -/

lemma card_inter_le_max (A B : Finset (List Char)) :
    ((A ∩ B).card : ℚ) ≤ (max A.card B.card : ℚ) := by
  have h1 : (A ∩ B).card ≤ A.card := Finset.card_le_card Finset.inter_subset_left
  have h2 : A.card ≤ max A.card B.card := le_max_left _ _
  exact_mod_cast le_trans h1 h2

/-- C3: for all strings `a` and `b`, `overlap(a,b)` lies in `[0,1]`, equals
`0` when either token set is empty, otherwise equals
`|A ∩ B| / max(|A|, |B|)`; it is symmetric, and `overlap(a,a) = 1` whenever
`a` has at least one qualifying token. -/
theorem C3_overlap_contract (a b : String) :
    0 ≤ tokenOverlapScore a b ∧ tokenOverlapScore a b ≤ 1 ∧
    ((tokensOf a).toFinset.card = 0 ∨ (tokensOf b).toFinset.card = 0 →
      tokenOverlapScore a b = 0) ∧
    ((tokensOf a).toFinset.card ≠ 0 → (tokensOf b).toFinset.card ≠ 0 →
      tokenOverlapScore a b =
        (((tokensOf a).toFinset ∩ (tokensOf b).toFinset).card : ℚ) /
          (max (tokensOf a).toFinset.card (tokensOf b).toFinset.card : ℚ)) ∧
    tokenOverlapScore a b = tokenOverlapScore b a ∧
    (tokensOf a ≠ [] → tokenOverlapScore a a = 1) := by
  refine ⟨?_, ?_, ?_, ?_, ?_, ?_⟩
  · unfold tokenOverlapScore
    dsimp only
    split
    · exact le_refl 0
    · positivity
  · unfold tokenOverlapScore
    dsimp only
    split
    · norm_num
    · rename_i hne
      push_neg at hne
      apply div_le_one_of_le
      · exact card_inter_le_max _ _
      · positivity
  · intro h
    unfold tokenOverlapScore
    dsimp only
    split
    · rfl
    · rename_i hne
      exact absurd h hne
  · intro hA hB
    unfold tokenOverlapScore
    dsimp only
    split
    · rename_i hor
      rcases hor with h | h
      · exact absurd h hA
      · exact absurd h hB
    · rfl
  · by_cases hA : (tokensOf a).toFinset.card = 0 <;>
      by_cases hB : (tokensOf b).toFinset.card = 0 <;>
        simp [tokenOverlapScore, hA, hB, Finset.inter_comm, max_comm]
  · intro h
    have hcard : (tokensOf a).toFinset.card ≠ 0 := by
      have hne : (tokensOf a).toFinset.Nonempty := by
        match h2 : tokensOf a with
        | [] => exact absurd h2 h
        | t :: ts => exact ⟨t, List.mem_toFinset.mpr (by simp)⟩
      have := Finset.card_pos.mpr hne
      omega
    unfold tokenOverlapScore
    dsimp only
    split
    · rename_i hor
      rcases hor with h' | h' <;> exact absurd h' hcard
    · rw [Finset.inter_self, max_self]
      apply div_self
      exact_mod_cast hcard

unseal wordRuns in
theorem C3_witness :
    tokensOf catalogEcho ≠ [] ∧ tokenOverlapScore catalogEcho catalogEcho = 1 :=
  ⟨by decide, (C3_overlap_contract catalogEcho catalogEcho).2.2.2.2.2 (by decide)⟩

/-! ## C4: `discountPercent` -/

lemma decValue_nonneg (l : List Char) : 0 ≤ decValue l := by
  unfold decValue
  dsimp only
  split
  · positivity
  · exact add_nonneg (Nat.cast_nonneg _) (div_nonneg (Nat.cast_nonneg _) (by positivity))

lemma parseMoney_nonneg {s : String} {q : ℚ} (h : parseMoney s = some q) : 0 ≤ q := by
  unfold parseMoney jsNumber at h
  split at h
  · injection h with h
    rw [← h]
  · split at h
    · exact absurd h (by simp)
    · split at h
      · exact absurd h (by simp)
      · injection h with h
        rw [← h]
        exact decValue_nonneg _

lemma jsRound_range {p b : ℚ} (hp : 0 < p) (hpb : p < b) :
    0 ≤ jsRound ((b - p) / b * 100) ∧ jsRound ((b - p) / b * 100) ≤ 100 := by
  have hb : 0 < b := lt_trans hp hpb
  have h1 : (b - p) / b < 1 := by
    rw [div_lt_one hb]
    linarith
  have h0 : 0 < (b - p) / b := div_pos (by linarith) hb
  constructor
  · rw [jsRound, Int.floor_nonneg]
    nlinarith
  · unfold jsRound
    have hle : (b - p) / b * 100 + 1 / 2 < 101 := by nlinarith
    have h2 : (⌊(b - p) / b * 100 + 1 / 2⌋ : ℚ) ≤ (b - p) / b * 100 + 1 / 2 := Int.floor_le _
    have h3 : (⌊(b - p) / b * 100 + 1 / 2⌋ : ℚ) < 101 := lt_of_le_of_lt h2 hle
    have h4 : ⌊(b - p) / b * 100 + 1 / 2⌋ < (101 : ℤ) := by exact_mod_cast h3
    omega

lemma buildCandidate_discountPct (item : RawItem) (dt : String) :
    (buildCandidate item dt).discountPct =
      match parseMoney (item.priceDispR.getD ""), parseMoney (item.basisDispR.getD "") with
      | some p, some b =>
        if p ≠ 0 ∧ b ≠ 0 ∧ p < b then some (jsRound ((b - p) / b * 100)) else none
      | _, _ => none := rfl

/-- C4 (amended): `discountPercent` equals
`round((prior - current)/prior * 100)` exactly when both display strings
parse numerically to values with the current price nonzero and the prior
strictly larger (a current price parsing to `0` yields no discount); when
present it is an integer in `[0, 100]` (the value `0` can occur). -/
theorem C4_discount_amended (item : RawItem) (dt : String) :
    (∀ n : ℤ, (buildCandidate item dt).discountPct = some n →
      ∃ p b : ℚ, parseMoney ((buildCandidate item dt).priceDisp) = some p ∧
        parseMoney ((buildCandidate item dt).basisDisp) = some b ∧
        p ≠ 0 ∧ b ≠ 0 ∧ p < b ∧ n = jsRound ((b - p) / b * 100) ∧ 0 ≤ n ∧ n ≤ 100) ∧
    (∀ p b : ℚ, parseMoney ((buildCandidate item dt).priceDisp) = some p →
      parseMoney ((buildCandidate item dt).basisDisp) = some b →
      p ≠ 0 → b ≠ 0 → p < b →
      (buildCandidate item dt).discountPct = some (jsRound ((b - p) / b * 100))) := by
  have hpd : (buildCandidate item dt).priceDisp = item.priceDispR.getD "" := rfl
  have hbd : (buildCandidate item dt).basisDisp = item.basisDispR.getD "" := rfl
  have hdp := buildCandidate_discountPct item dt
  rw [hpd, hbd]
  constructor
  · intro n hn
    rw [hdp] at hn
    split at hn
    · rename_i p b hpeq hbeq
      split at hn
      · rename_i hcond
        obtain ⟨hp0, hb0, hpb⟩ := hcond
        injection hn with hn
        have hpn : 0 ≤ p := parseMoney_nonneg hpeq
        have hppos : 0 < p := lt_of_le_of_ne hpn (Ne.symm hp0)
        obtain ⟨hr0, hr100⟩ := jsRound_range hppos hpb
        exact ⟨p, b, hpeq, hbeq, hp0, hb0, hpb, hn.symm, hn ▸ hr0, hn ▸ hr100⟩
      · exact absurd hn (by simp)
    · exact absurd hn (by simp)
  · intro p b hpeq hbeq hp0 hb0 hpb
    rw [hdp, hpeq, hbeq]
    simp only [if_pos (show p ≠ 0 ∧ b ≠ 0 ∧ p < b from ⟨hp0, hb0, hpb⟩)]

def dispZero : String := "$0.00"
def dispFive : String := "$5.00"
def dispP51 : String := "$9,999.51"
def dispB10k : String := "$10,000.00"
def dispEight : String := "$8.00"
def dispTen : String := "$10.00"
def asinX : String := "B0ABC123"
def urlX : String := "https://www.amazon.com/dp/B0ABC123"

def rawZeroPrice : RawItem :=
  { asinR := some asinX, urlR := some urlX,
    priceDispR := some dispZero, basisDispR := some dispFive }

def rawTinyDiscount : RawItem :=
  { asinR := some asinX, urlR := some urlX,
    priceDispR := some dispP51, basisDispR := some dispB10k }

def rawGoodDiscount : RawItem :=
  { asinR := some asinX, urlR := some urlX,
    priceDispR := some dispEight, basisDispR := some dispTen }


lemma parseMoney_eval_dot (s : String) (l fp : List Char) (c0 : Char) (a b : ℕ)
    (hm : moneyChars s = l) (hne : ¬ l = [])
    (hdots : ¬ 2 ≤ (l.filter (fun c => c == '.')).length)
    (hnotall : ¬ l.all (fun c => c == '.') = true)
    (hdrop : l.dropWhile (fun c => c != '.') = c0 :: fp)
    (hip : natDigits (l.takeWhile (fun c => c != '.')) = a)
    (hfp : natDigits fp = b) :
    parseMoney s = some ((a : ℚ) + (b : ℚ) / 10 ^ fp.length) := by
  unfold parseMoney
  rw [hm]
  unfold jsNumber
  rw [if_neg hne, if_neg hdots, if_neg hnotall]
  unfold decValue
  dsimp only
  rw [hdrop]
  dsimp only
  rw [hip, hfp]

lemma parseMoney_dispZero : parseMoney dispZero = some 0 := by
  have h := parseMoney_eval_dot dispZero ['0', '.', '0', '0'] ['0', '0'] '.' 0 0
    rfl (by decide) (by decide) (by decide) rfl rfl rfl
  rw [h]
  norm_num

lemma parseMoney_dispFive : parseMoney dispFive = some 5 := by
  have h := parseMoney_eval_dot dispFive ['5', '.', '0', '0'] ['0', '0'] '.' 5 0
    rfl (by decide) (by decide) (by decide) rfl rfl rfl
  rw [h]
  norm_num

lemma parseMoney_dispP51 : parseMoney dispP51 = some (999951 / 100) := by
  have h := parseMoney_eval_dot dispP51 ['9', '9', '9', '9', '.', '5', '1'] ['5', '1'] '.' 9999 51
    rfl (by decide) (by decide) (by decide) rfl rfl rfl
  rw [h]
  norm_num

lemma parseMoney_dispB10k : parseMoney dispB10k = some 10000 := by
  have h := parseMoney_eval_dot dispB10k ['1', '0', '0', '0', '0', '.', '0', '0'] ['0', '0'] '.'
    10000 0 rfl (by decide) (by decide) (by decide) rfl rfl rfl
  rw [h]
  norm_num

lemma parseMoney_dispEight : parseMoney dispEight = some 8 := by
  have h := parseMoney_eval_dot dispEight ['8', '.', '0', '0'] ['0', '0'] '.' 8 0
    rfl (by decide) (by decide) (by decide) rfl rfl rfl
  rw [h]
  norm_num

lemma parseMoney_dispTen : parseMoney dispTen = some 10 := by
  have h := parseMoney_eval_dot dispTen ['1', '0', '.', '0', '0'] ['0', '0'] '.' 10 0
    rfl (by decide) (by decide) (by decide) rfl rfl rfl
  rw [h]
  norm_num

/-- C4 counterexample: with a current price display parsing numerically to
`0` and a prior of `5 > 0`, the claim demands a discount of `100`, but the
code's truthiness guard leaves it absent; and with prices `9999.51` and
`10000`, the discount is `round(0.0049) = 0`, which is present but not in
`(0, 100]`. -/
theorem C4_counterexample :
    parseMoney dispZero = some 0 ∧ parseMoney dispFive = some 5 ∧ (0 : ℚ) < 5 ∧
    (buildCandidate rawZeroPrice titleEcho).discountPct = none ∧
    parseMoney dispP51 = some (999951 / 100) ∧ parseMoney dispB10k = some 10000 ∧
    (buildCandidate rawTinyDiscount titleEcho).discountPct = some 0 ∧ ¬ (0 : ℤ) < 0 := by
  have h1 : (buildCandidate rawZeroPrice titleEcho).discountPct = none := by
    rw [buildCandidate_discountPct]
    have e1 : rawZeroPrice.priceDispR = some dispZero := rfl
    have e2 : rawZeroPrice.basisDispR = some dispFive := rfl
    rw [e1, e2]
    simp only [Option.getD_some]
    rw [parseMoney_dispZero, parseMoney_dispFive]
    norm_num
  have h2 : (buildCandidate rawTinyDiscount titleEcho).discountPct = some 0 := by
    rw [buildCandidate_discountPct]
    have e1 : rawTinyDiscount.priceDispR = some dispP51 := rfl
    have e2 : rawTinyDiscount.basisDispR = some dispB10k := rfl
    rw [e1, e2]
    simp only [Option.getD_some]
    rw [parseMoney_dispP51, parseMoney_dispB10k]
    have hcond : (999951 / 100 : ℚ) ≠ 0 ∧ (10000 : ℚ) ≠ 0 ∧ (999951 / 100 : ℚ) < 10000 := by
      norm_num
    simp only [if_pos hcond]
    have hval : ((10000 : ℚ) - 999951 / 100) / 10000 * 100 + 1 / 2 = 5049 / 10000 := by
      norm_num
    rw [jsRound, hval]
    have : ⌊(5049 / 10000 : ℚ)⌋ = 0 := by
      rw [Int.floor_eq_iff] <;> norm_num
    rw [this]
  exact ⟨parseMoney_dispZero, parseMoney_dispFive, by norm_num, h1,
    parseMoney_dispP51, parseMoney_dispB10k, h2, by norm_num⟩

theorem C4_witness :
    (buildCandidate rawGoodDiscount titleEcho).discountPct =
      some (jsRound ((10 - 8) / 10 * 100)) :=
  (C4_discount_amended rawGoodDiscount titleEcho).2 8 10 parseMoney_dispEight
    parseMoney_dispTen (by norm_num) (by norm_num) (by norm_num)

/-! ## C6: `fit280` -/

lemma stripTail_length_le (l : List Char) : (stripTail l).length ≤ l.length := by
  unfold stripTail
  split
  · exact le_rfl
  · have h1 := length_dw_le jsWs (l.reverse.dropWhile (fun c => !(jsWs c)))
    have h2 := length_dw_le (fun c => !(jsWs c)) l.reverse
    simp only [List.length_reverse] at h1 h2 ⊢
    omega

lemma string_length_mk (l : List Char) : (String.mk l).length = l.length := rfl

/-- C6 (amended): text of length at most 280 is returned unchanged; longer
text is cut to 277 characters, the final whitespace run together with the
(possibly complete) word after it is removed, and an ellipsis is appended;
the output never exceeds 280 characters.  When the 277-character slice ends
in whitespace only the trailing whitespace is removed, but when the slice
ends exactly at the end of a complete word, that word is removed as well. -/
theorem C6_fit280_amended (s : String) :
    (s.length ≤ 280 → fit280 s = s) ∧
    (280 < s.length →
      fit280 s = String.mk (stripTail (s.data.take 277)) ++ threeDots ∧
      (fit280 s).length ≤ 280) ∧
    (∀ c, (s.data.take 277).getLast? = some c → jsWs c = true →
      stripTail (s.data.take 277) = ((s.data.take 277).reverse.dropWhile jsWs).reverse) := by
  refine ⟨?_, ?_, ?_⟩
  · intro h
    unfold fit280
    rw [if_pos h]
  · intro h
    have hgt : ¬ s.length ≤ 280 := by omega
    refine ⟨by unfold fit280; rw [if_neg hgt], ?_⟩
    unfold fit280
    rw [if_neg hgt]
    have h1 := stripTail_length_le (s.data.take 277)
    have h2 : (s.data.take 277).length ≤ 277 := by
      simp [List.length_take]
    have h3 : (String.mk (stripTail (s.data.take 277)) ++ threeDots).length
        = (stripTail (s.data.take 277)).length + 3 := by
      rw [String.length_append, string_length_mk]
      rfl
    omega
  · intro c hc hws
    have hrev : (s.data.take 277).reverse.head? = some c := by
      rw [List.head?_reverse]
      exact hc
    match hr : (s.data.take 277).reverse with
    | [] =>
      rw [hr] at hrev
      simp at hrev
    | c0 :: t =>
      rw [hr] at hrev
      simp only [List.head?_cons, Option.some.injEq] at hrev
      subst hrev
      unfold stripTail
      rw [hr]
      rw [List.dropWhile_cons_of_neg (by simp [hws])]

def s288 : String :=
  String.mk (List.replicate 273 'a' ++ [' ', 'a', 'b', 'c', ' '] ++ List.replicate 10 'b')

def out276 : String := String.mk (List.replicate 273 'a') ++ threeDots

def abcL : List Char := ['a', 'b', 'c']

/-- C6 counterexample: `s288` has length 288; its 277-character cut ends
exactly at the end of the complete word "abc" (character 277 of the
original is a whitespace, so the truncation point lands on a word
boundary), yet `fit280` strips the whole word: the output is 273 copies of
"a" followed by the ellipsis, and no longer contains "abc". -/
theorem C6_counterexample :
    s288.length = 288 ∧ s288.data[276]? = some 'c' ∧ s288.data[277]? = some ' ' ∧
    occursIn abcL (s288.data.take 277) = true ∧
    fit280 s288 = out276 ∧
    occursIn abcL out276.data = false := by
  refine ⟨by decide, by decide, by decide, by decide, by decide, by decide⟩

theorem C6_witness :
    fit280 titleEcho = titleEcho ∧
    (fit280 s288 = String.mk (stripTail (s288.data.take 277)) ++ threeDots ∧
      (fit280 s288).length ≤ 280) :=
  ⟨(C6_fit280_amended titleEcho).1 (by decide), (C6_fit280_amended s288).2.1 (by decide)⟩

/-! ## C7: the history bound -/

def foldRecord (st : HistoryState) (ps : List (String × String)) : HistoryState :=
  ps.foldl (fun s p => recordUse s p.1 p.2) st

lemma lastN_length_le (n : ℕ) (l : List String) : (lastN n l).length ≤ n := by
  simp only [lastN, List.length_drop]
  omega

lemma lastN_suffix (n : ℕ) (l : List String) : lastN n l <:+ l := List.drop_suffix _ _

lemma suffix_eq_of_length {l1 l2 l : List String} (h1 : l1 <:+ l) (h2 : l2 <:+ l)
    (h : l1.length = l2.length) : l1 = l2 := by
  obtain ⟨t1, ht1⟩ := h1
  obtain ⟨t2, ht2⟩ := h2
  rw [← ht2] at ht1
  have hlen : t1.length = t2.length := by
    have := congrArg List.length ht1
    simp only [List.length_append] at this
    omega
  exact (List.append_inj ht1 hlen).2

lemma lastN_append_left (n : ℕ) (a b : List String) : lastN n a ++ b <:+ a ++ b := by
  obtain ⟨t, ht⟩ := lastN_suffix n a
  exact ⟨t, by rw [← List.append_assoc, ht]⟩

lemma lastN_lastN_append (n : ℕ) (a b : List String) :
    lastN n (lastN n a ++ b) = lastN n (a ++ b) := by
  apply suffix_eq_of_length ((lastN_suffix n _).trans (lastN_append_left n a b))
    (lastN_suffix n _)
  simp only [lastN, List.length_drop, List.length_append]
  omega

def idX : String := "x"

def st501 : HistoryState := { usedAsins := List.replicate 501 idX, usedTitles := [] }

/-- C7 counterexample: with a starting `HistoryState` of 501 ids and the
empty sequence of `record` applications, the resulting state is the start
state itself, and its id list is longer than 500, contradicting the claim
for arbitrary starting states and arbitrary (possibly empty) sequences. -/
theorem C7_counterexample :
    foldRecord st501 [] = st501 ∧ (foldRecord st501 []).usedAsins.length = 501 ∧
    ¬ (foldRecord st501 []).usedAsins.length ≤ 500 :=
  ⟨rfl, by decide, by decide⟩

/-- C7 (amended): for every starting `HistoryState` and every NONEMPTY
sequence of `record(state, id, title)` applications, the resulting state
keeps exactly the most recent 500 entries of start-plus-insertions, in
insertion order with the oldest evicted first, and both sequences have
length at most 500. -/
theorem C7_record_amended (st : HistoryState) (ps : List (String × String)) (h : ps ≠ []) :
    (foldRecord st ps).usedAsins = lastN 500 (st.usedAsins ++ ps.map Prod.fst) ∧
    (foldRecord st ps).usedTitles = lastN 500 (st.usedTitles ++ ps.map Prod.snd) ∧
    (foldRecord st ps).usedAsins.length ≤ 500 ∧
    (foldRecord st ps).usedTitles.length ≤ 500 := by
  have key : ∀ ps' : List (String × String), ps' ≠ [] → ∀ st' : HistoryState,
      (foldRecord st' ps').usedAsins = lastN 500 (st'.usedAsins ++ ps'.map Prod.fst) ∧
      (foldRecord st' ps').usedTitles = lastN 500 (st'.usedTitles ++ ps'.map Prod.snd) := by
    intro ps'
    induction ps' with
    | nil => intro h'; exact absurd rfl h'
    | cons p rest ih =>
      intro h' st'
      cases rest with
      | nil => simp [foldRecord, recordUse]
      | cons q qs =>
        have step : foldRecord st' (p :: q :: qs) =
            foldRecord (recordUse st' p.1 p.2) (q :: qs) := by
          simp [foldRecord]
        obtain ⟨hA, hT⟩ := ih (by simp) (recordUse st' p.1 p.2)
        constructor
        · rw [step, hA]
          rw [show (recordUse st' p.1 p.2).usedAsins
              = lastN 500 (st'.usedAsins ++ [p.1]) from rfl]
          rw [lastN_lastN_append]
          simp [List.append_assoc]
        · rw [step, hT]
          rw [show (recordUse st' p.1 p.2).usedTitles
              = lastN 500 (st'.usedTitles ++ [p.2]) from rfl]
          rw [lastN_lastN_append]
          simp [List.append_assoc]
  obtain ⟨hA, hT⟩ := key ps h st
  refine ⟨hA, hT, ?_, ?_⟩
  · rw [hA]
    exact lastN_length_le _ _
  · rw [hT]
    exact lastN_length_le _ _

def histEmpty : HistoryState := { usedAsins := [], usedTitles := [] }

def onePair : List (String × String) := [(asinX, titleEcho)]

theorem C7_witness :
    (foldRecord histEmpty onePair).usedAsins =
      lastN 500 (histEmpty.usedAsins ++ onePair.map Prod.fst) ∧
    (foldRecord histEmpty onePair).usedTitles =
      lastN 500 (histEmpty.usedTitles ++ onePair.map Prod.snd) ∧
    (foldRecord histEmpty onePair).usedAsins.length ≤ 500 ∧
    (foldRecord histEmpty onePair).usedTitles.length ≤ 500 :=
  C7_record_amended histEmpty onePair (by decide)

/-! ## C2: the scoring formula -/

/-- C2: for every candidate, the score is
`matchScore*100 + (discountPercent or 0)*2 + rankScore`, where `rankScore`
is `max(0, 100 - log10(popularityRank)*20)` when the rank is present and
positive, and `0` when the rank is `0` or absent; the logarithm is never
applied to `0` (the `0`-rank branch bypasses it). -/
theorem C2_score_formula (c : Candidate) :
    (c.websiteRank = none →
      scoreCandidate c = (c.matchScore : ℝ) * 100 + ((c.discountPct.getD 0 : ℤ) : ℝ) * 2) ∧
    (c.websiteRank = some 0 →
      scoreCandidate c = (c.matchScore : ℝ) * 100 + ((c.discountPct.getD 0 : ℤ) : ℝ) * 2) ∧
    (∀ r : ℚ, c.websiteRank = some r → 0 < r →
      scoreCandidate c = (c.matchScore : ℝ) * 100 + ((c.discountPct.getD 0 : ℤ) : ℝ) * 2 +
        max 0 (100 - Real.logb 10 (r : ℝ) * 20)) := by
  refine ⟨?_, ?_, ?_⟩
  · intro h
    unfold scoreCandidate
    rw [h]
    rw [add_zero]
  · intro h
    unfold scoreCandidate
    rw [h]
    dsimp only
    rw [if_pos rfl, add_zero]
  · intro r h hr
    unfold scoreCandidate
    rw [h]
    dsimp only
    rw [if_neg hr.ne']

def candR100 : Candidate :=
  { asin := asinX, title := catalogEcho, url := urlX, priceDisp := dispEight,
    basisDisp := dispTen, discountPct := some 20, websiteRank := some 100,
    features := [], img := "", matchScore := 1 / 2, sourceTitle := titleEcho }

theorem C2_witness :
    scoreCandidate candR100 = ((1 / 2 : ℚ) : ℝ) * 100 + ((20 : ℤ) : ℝ) * 2 +
      max 0 (100 - Real.logb 10 ((100 : ℚ) : ℝ) * 20) :=
  (C2_score_formula candR100).2.2 100 rfl (by norm_num)

/-! ## C1: selection of the first-discovered candidate of maximal score -/

lemma insertD_ne_nil (c : Candidate) (l : List Candidate) : insertD c l ≠ [] := by
  cases l with
  | nil => simp [insertD]
  | cons d ds =>
    unfold insertD
    split <;> simp

lemma sortD_eq_nil_iff (l : List Candidate) : sortD l = [] ↔ l = [] := by
  cases l with
  | nil => simp [sortD]
  | cons c cs => simp [sortD, insertD_ne_nil]

lemma firstMax_spec (l : List Candidate) (hl : l ≠ []) :
    ∃ c pre suf, firstMax l = some c ∧ l = pre ++ c :: suf ∧
      (∀ d ∈ l, scoreCandidate d ≤ scoreCandidate c) ∧
      (∀ d ∈ pre, scoreCandidate d < scoreCandidate c) := by
  induction l with
  | nil => exact absurd rfl hl
  | cons a as ih =>
    cases as with
    | nil =>
      refine ⟨a, [], [], by simp [firstMax], by simp, ?_, by simp⟩
      intro d hd
      simp only [List.mem_singleton] at hd
      rw [hd]
    | cons b bs =>
      obtain ⟨c, pre, suf, hfm, hdecomp, hmax, hpre⟩ := ih (by simp)
      by_cases hlt : scoreCandidate a < scoreCandidate c
      · refine ⟨c, a :: pre, suf, ?_, by rw [hdecomp]; rfl, ?_, ?_⟩
        · unfold firstMax
          rw [hfm]
          dsimp only
          rw [if_pos hlt]
        · intro d hd
          rcases List.mem_cons.mp hd with h | h
          · rw [h]
            exact le_of_lt hlt
          · exact hmax d h
        · intro d hd
          rcases List.mem_cons.mp hd with h | h
          · rw [h]
            exact hlt
          · exact hpre d h
      · refine ⟨a, [], b :: bs, ?_, by simp, ?_, by simp⟩
        · unfold firstMax
          rw [hfm]
          dsimp only
          rw [if_neg hlt]
        · intro d hd
          rcases List.mem_cons.mp hd with h | h
          · rw [h]
          · exact le_trans (hmax d h) (not_lt.mp hlt)

lemma head_sortD (l : List Candidate) : (sortD l).head? = firstMax l := by
  induction l with
  | nil => rfl
  | cons a as ih =>
    show (insertD a (sortD as)).head? = firstMax (a :: as)
    cases hs : sortD as with
    | nil =>
      have hnil : as = [] := (sortD_eq_nil_iff as).mp hs
      rw [hnil]
      simp [firstMax, insertD]
    | cons d ds =>
      have hd : firstMax as = some d := by
        rw [← ih, hs]
        rfl
      unfold firstMax
      rw [hd]
      dsimp only
      unfold insertD
      split
      · rename_i hle
        rw [if_neg (not_lt.mpr hle)]
        rfl
      · rename_i hnle
        rw [if_pos (not_le.mp hnle)]
        rfl

/-- The four `continue` guards of the inner loop, as one predicate. -/
def keepB (st : HistoryState) (c : Candidate) : Bool :=
  decide (¬ c.asin = "") && decide (¬ c.url = "") && !(st.usedAsins.contains c.asin) &&
    decide (¬ c.matchScore < 1 / 4)

/-- All candidates built during the accumulation loop, before the guards. -/
lemma onSearch_error (msg : String) (acc : List Candidate)
    (f : List RawItem → List Candidate) : onSearch (Except.error msg) acc f = acc := rfl

lemma onSearch_ok (found : List RawItem) (acc : List Candidate)
    (f : List RawItem → List Candidate) : onSearch (Except.ok found) acc f = f found := rfl

def builtCandidates (e : Env) (st : HistoryState) : List Candidate :=
  (freshItems e st).foldl
    (fun acc d =>
      if cleanTitle d.title = "" then acc
      else
        onSearch (e.search (cleanTitle d.title)) acc (fun found =>
          acc ++ found.map (fun it => buildCandidate it d.title))) []

lemma guard_eq (st : HistoryState) (c : Candidate) (acc2 : List Candidate) :
    (if c.asin = "" then acc2
     else if c.url = "" then acc2
     else if st.usedAsins.contains c.asin then acc2
     else if c.matchScore < 1 / 4 then acc2
     else acc2 ++ [c])
    = if keepB st c then acc2 ++ [c] else acc2 := by
  by_cases h1 : c.asin = ""
  · have hk : keepB st c = false := by
      simp [keepB, h1]
    rw [if_pos h1, hk]
    simp
  · rw [if_neg h1]
    by_cases h2 : c.url = ""
    · have hk : keepB st c = false := by
        simp [keepB, h2]
      rw [if_pos h2, hk]
      simp
    · rw [if_neg h2]
      by_cases h3 : st.usedAsins.contains c.asin = true
      · have hmem : c.asin ∈ st.usedAsins := by simpa using h3
        have hk : keepB st c = false := by
          simp [keepB, hmem]
        rw [if_pos h3, hk]
        simp
      · rw [if_neg h3]
        have hnot : c.asin ∉ st.usedAsins := by simpa using h3
        by_cases h4 : c.matchScore < 1 / 4
        · have hk : keepB st c = false := by
            simp [keepB]
            intro _ _ _
            linarith
          rw [if_pos h4, hk]
          simp
        · have hk : keepB st c = true := by
            simp [keepB, h1, h2, hnot]
            linarith [not_lt.mp h4]
          rw [if_neg h4, hk]
          simp

lemma candidates_inner (st : HistoryState) (dt : String) (found : List RawItem) :
    ∀ acc, found.foldl (fun acc2 it =>
      if (buildCandidate it dt).asin = "" then acc2
      else if (buildCandidate it dt).url = "" then acc2
      else if st.usedAsins.contains (buildCandidate it dt).asin then acc2
      else if (buildCandidate it dt).matchScore < 1 / 4 then acc2
      else acc2 ++ [buildCandidate it dt]) acc
    = acc ++ (found.map (fun it => buildCandidate it dt)).filter (keepB st) := by
  induction found with
  | nil =>
    intro acc
    simp
  | cons it rest ih =>
    intro acc
    rw [List.foldl_cons]
    rw [guard_eq, List.map_cons, List.filter_cons]
    by_cases hk : keepB st (buildCandidate it dt)
    · rw [if_pos hk, ih]
      simp [hk, List.append_assoc]
    · rw [if_neg hk, ih]
      simp [hk]

lemma candidates_outer (e : Env) (st : HistoryState) (items : List DealItem) :
    ∀ accB : List Candidate,
      items.foldl
        (fun acc d =>
          if cleanTitle d.title = "" then acc
          else
            onSearch (e.search (cleanTitle d.title)) acc (fun found =>
              found.foldl
                (fun acc2 it =>
                  if (buildCandidate it d.title).asin = "" then acc2
                  else if (buildCandidate it d.title).url = "" then acc2
                  else if st.usedAsins.contains (buildCandidate it d.title).asin then acc2
                  else if (buildCandidate it d.title).matchScore < 1 / 4 then acc2
                  else acc2 ++ [buildCandidate it d.title]) acc)) (accB.filter (keepB st))
      = (items.foldl
          (fun acc d =>
            if cleanTitle d.title = "" then acc
            else
              onSearch (e.search (cleanTitle d.title)) acc (fun found =>
                acc ++ found.map (fun it => buildCandidate it d.title))) accB).filter
          (keepB st) := by
  induction items with
  | nil =>
    intro accB
    simp
  | cons d rest ih =>
    intro accB
    rw [List.foldl_cons, List.foldl_cons]
    by_cases hkw : cleanTitle d.title = ""
    · rw [if_pos hkw, if_pos hkw]
      exact ih accB
    · rw [if_neg hkw, if_neg hkw]
      cases hs : e.search (cleanTitle d.title) with
      | error msg =>
        rw [onSearch_error, onSearch_error]
        exact ih accB
      | ok found =>
        rw [onSearch_ok, onSearch_ok]
        rw [candidates_inner st d.title found]
        rw [← List.filter_append]
        exact ih (accB ++ found.map (fun it => buildCandidate it d.title))

lemma candidatesFor_eq_filter (e : Env) (st : HistoryState) :
    candidatesFor e st (freshItems e st) = (builtCandidates e st).filter (keepB st) := by
  unfold candidatesFor builtCandidates
  exact candidates_outer e st (freshItems e st) []

lemma runMain_pickedC (e : Env) (st : HistoryState) :
    (runMain e st).pickedC = (sortD (candidatesFor e st (freshItems e st))).head? := by
  unfold runMain
  cases hfi : freshItems e st with
  | nil =>
    dsimp only
    show (none : Option Candidate) = (sortD (candidatesFor e st [])).head?
    simp [candidatesFor, sortD]
  | cons i is =>
    dsimp only
    cases hcf : candidatesFor e st (i :: is) with
    | nil =>
      dsimp only
      simp [sortD]
    | cons c0 cs0 =>
      dsimp only
      cases hsd : sortD (c0 :: cs0) with
      | nil => rfl
      | cons picked rest =>
        dsimp only
        cases hg : e.genPost picked with
        | error msg => rfl
        | ok base =>
          dsimp only
          cases hdry : e.dryRun with
          | true => rfl
          | false =>
            cases hp : e.publish (fit280 (base ++ " " ++ picked.url ++ " "
                ++ e.disclosureHashtag)) with
            | error msg => rfl
            | ok pid => rfl

/-- C1: whenever the accumulated candidate list is nonempty, it consists of
exactly the built candidates with nonempty id and url, id not already used,
and matchScore at least 0.25; and the run selects the first-discovered
candidate of maximal score among them (score ties keep discovery order, so
the earliest maximal candidate wins). -/
theorem C1_select_first_max (e : Env) (st : HistoryState)
    (h : candidatesFor e st (freshItems e st) ≠ []) :
    candidatesFor e st (freshItems e st) = (builtCandidates e st).filter (keepB st) ∧
    ∃ c pre suf,
      (runMain e st).pickedC = some c ∧
      candidatesFor e st (freshItems e st) = pre ++ c :: suf ∧
      (∀ d ∈ candidatesFor e st (freshItems e st), scoreCandidate d ≤ scoreCandidate c) ∧
      (∀ d ∈ pre, scoreCandidate d < scoreCandidate c) := by
  refine ⟨candidatesFor_eq_filter e st, ?_⟩
  obtain ⟨c, pre, suf, hfm, hdecomp, hmax, hpre⟩ :=
    firstMax_spec (candidatesFor e st (freshItems e st)) h
  refine ⟨c, pre, suf, ?_, hdecomp, hmax, hpre⟩
  rw [runMain_pickedC, head_sortD]
  exact hfm

/-! ## A concrete run environment (used by the witnesses and scenarios) -/

def rawEcho : RawItem :=
  { titleDV := some catalogEcho, asinR := some asinX, urlR := some urlX }

def dealEcho : DealItem := { title := titleEcho, link := "", pubDate := "" }

def tagAd : String := "#ad"

def genTextW : String := "Great smart speaker for any room"

def longBase : String := String.mk (List.replicate 300 'a')

def envW : Env :=
  { feedResults := [Except.ok [dealEcho]], maxFeedItems := 20, maxCandidates := 8,
    merchantTest := fun _ => true, search := fun _ => Except.ok [rawEcho],
    genPost := fun _ => Except.ok genTextW, publish := fun _ => Except.ok 1,
    dryRun := false, disclosureHashtag := tagAd }

def envDry : Env := { envW with dryRun := true }

def envLong : Env := { envW with genPost := fun _ => Except.ok longBase }

def cEcho : Candidate := buildCandidate rawEcho titleEcho

unseal priceStrip promoStripAux collapseWs wordRuns in
lemma tokensEcho_cards :
    ((tokensOf (cleanTitle titleEcho)).toFinset ∩ (tokensOf catalogEcho).toFinset).card = 2 ∧
    (tokensOf (cleanTitle titleEcho)).toFinset.card = 3 ∧
    (tokensOf catalogEcho).toFinset.card = 6 :=
  ⟨by decide, by decide, by decide⟩

lemma matchEcho : tokenOverlapScore (cleanTitle titleEcho) catalogEcho = 1 / 3 := by
  obtain ⟨hI, hA, hB⟩ := tokensEcho_cards
  unfold tokenOverlapScore
  dsimp only
  rw [hI, hA, hB]
  rw [if_neg (by norm_num)]
  norm_num

lemma cEcho_matchScore : cEcho.matchScore = 1 / 3 := by
  show tokenOverlapScore (cleanTitle titleEcho) catalogEcho = 1 / 3
  exact matchEcho

unseal priceStrip promoStripAux collapseWs in
lemma kwEcho_ne : ¬ cleanTitle dealEcho.title = "" := by decide

lemma pool_of_fields (e : Env)
    (hf : e.feedResults = [Except.ok [dealEcho]]) (hmf : e.maxFeedItems = 20)
    (hmc : e.maxCandidates = 8) (hmt : e.merchantTest = fun _ => true)
    (hse : e.search = fun _ => Except.ok [rawEcho]) :
    freshItems e histEmpty = [dealEcho] ∧
    candidatesFor e histEmpty (freshItems e histEmpty) = [cEcho] := by
  have hfresh : freshItems e histEmpty = [dealEcho] := by
    unfold freshItems gatherItems
    rw [hf, hmt, hmc, hmf]
    decide
  refine ⟨hfresh, ?_⟩
  rw [hfresh]
  unfold candidatesFor
  simp only [List.foldl_cons, List.foldl_nil]
  rw [if_neg kwEcho_ne, hse]
  dsimp only
  rw [onSearch_ok]
  simp only [List.foldl_cons, List.foldl_nil]
  have h1 : ¬ (buildCandidate rawEcho dealEcho.title).asin = "" := by decide
  have h2 : ¬ (buildCandidate rawEcho dealEcho.title).url = "" := by decide
  have h3 : ¬ histEmpty.usedAsins.contains (buildCandidate rawEcho dealEcho.title).asin
      = true := by decide
  have h4 : ¬ (buildCandidate rawEcho dealEcho.title).matchScore < 1 / 4 := by
    have : (buildCandidate rawEcho dealEcho.title).matchScore = 1 / 3 := cEcho_matchScore
    rw [this]
    norm_num
  rw [if_neg h1, if_neg h2, if_neg h3, if_neg h4]
  rfl

lemma poolW : candidatesFor envW histEmpty (freshItems envW histEmpty) = [cEcho] :=
  (pool_of_fields envW rfl rfl rfl rfl rfl).2

theorem C1_witness :
    candidatesFor envW histEmpty (freshItems envW histEmpty) ≠ [] ∧
    (candidatesFor envW histEmpty (freshItems envW histEmpty) =
        (builtCandidates envW histEmpty).filter (keepB histEmpty) ∧
      ∃ c pre suf,
        (runMain envW histEmpty).pickedC = some c ∧
        candidatesFor envW histEmpty (freshItems envW histEmpty) = pre ++ c :: suf ∧
        (∀ d ∈ candidatesFor envW histEmpty (freshItems envW histEmpty),
          scoreCandidate d ≤ scoreCandidate c) ∧
        (∀ d ∈ pre, scoreCandidate d < scoreCandidate c)) := by
  have hne : candidatesFor envW histEmpty (freshItems envW histEmpty) ≠ [] := by
    rw [poolW]
    simp
  exact ⟨hne, C1_select_first_max envW histEmpty hne⟩

/-! ## C8: persistence of the history state -/

/-- C8: the persisted history is written at most once per run (the `saved`
field is a single `Option`), and only when a candidate was selected, the
run is not a dry run, and publishing succeeded; a run that retains no fresh
deal items, accumulates no valid candidates, is configured as a dry run, or
whose publishing call fails leaves the persisted state unchanged
(`saved = none`). -/
theorem C8_persistence (e : Env) (st : HistoryState) :
    (freshItems e st = [] → (runMain e st).saved = none) ∧
    (candidatesFor e st (freshItems e st) = [] → (runMain e st).saved = none) ∧
    (e.dryRun = true → (runMain e st).saved = none) ∧
    (∀ hs : HistoryState, (runMain e st).saved = some hs →
      ∃ c base pid, (runMain e st).pickedC = some c ∧ e.genPost c = Except.ok base ∧
        e.dryRun = false ∧
        e.publish (fit280 (base ++ " " ++ c.url ++ " " ++ e.disclosureHashtag)) =
          Except.ok pid ∧
        hs = recordUse st c.asin
          (if c.sourceTitle = "" then c.title else c.sourceTitle)) := by
  unfold runMain
  cases hfi : freshItems e st with
  | nil =>
    exact ⟨fun _ => rfl, fun _ => rfl, fun _ => rfl, fun hs h => absurd h (by simp)⟩
  | cons i is =>
    dsimp only
    cases hcf : candidatesFor e st (i :: is) with
    | nil =>
      exact ⟨fun _ => rfl, fun _ => rfl, fun _ => rfl, fun hs h => absurd h (by simp)⟩
    | cons c0 cs0 =>
      dsimp only
      cases hsd : sortD (c0 :: cs0) with
      | nil =>
        exact ⟨fun _ => rfl, fun _ => rfl, fun _ => rfl, fun hs h => absurd h (by simp)⟩
      | cons picked rest =>
        dsimp only
        cases hg : e.genPost picked with
        | error msg =>
          exact ⟨fun _ => rfl, fun _ => rfl, fun _ => rfl, fun hs h => absurd h (by simp)⟩
        | ok base =>
          dsimp only
          cases hdry : e.dryRun with
          | true =>
            exact ⟨fun _ => rfl, fun _ => rfl, fun _ => rfl, fun hs h => absurd h (by simp)⟩
          | false =>
            cases hp : e.publish (fit280 (base ++ " " ++ picked.url ++ " "
                ++ e.disclosureHashtag)) with
            | error msg =>
              exact ⟨fun _ => rfl, fun _ => rfl, fun _ => rfl,
                fun hs h => absurd h (by simp)⟩
            | ok pid =>
              refine ⟨fun h => absurd h (by simp), fun h => absurd h (by simp),
                fun h => absurd h (by simp), fun hs h => ?_⟩
              exact ⟨picked, base, pid, rfl, hg, rfl, hp, (Option.some.inj h).symm⟩

theorem C8_witness : (runMain envDry histEmpty).saved = none :=
  (C8_persistence envDry histEmpty).2.2.1 rfl

/-! ## C10: assembly and truncation of the final post text -/

def fittedLong : String := String.mk (List.replicate 277 'a') ++ threeDots

lemma runMain_finalText_some (e : Env) (st : HistoryState) (c : Candidate) (base : String)
    (hpick : (sortD (candidatesFor e st (freshItems e st))).head? = some c)
    (hg : e.genPost c = Except.ok base) :
    (runMain e st).finalText =
      some (fit280 (base ++ " " ++ c.url ++ " " ++ e.disclosureHashtag)) := by
  unfold runMain
  cases hfi : freshItems e st with
  | nil =>
    rw [hfi] at hpick
    simp [candidatesFor, sortD] at hpick
  | cons i is =>
    dsimp only
    rw [hfi] at hpick
    cases hcf : candidatesFor e st (i :: is) with
    | nil =>
      rw [hcf] at hpick
      simp [sortD] at hpick
    | cons c0 cs0 =>
      dsimp only
      rw [hcf] at hpick
      cases hsd : sortD (c0 :: cs0) with
      | nil =>
        rw [hsd] at hpick
        simp at hpick
      | cons picked rest =>
        dsimp only
        rw [hsd] at hpick
        simp only [List.head?_cons, Option.some.injEq] at hpick
        subst hpick
        cases hg2 : e.genPost picked with
        | error msg =>
          rw [hg2] at hg
          exact absurd hg (by simp)
        | ok base2 =>
          rw [hg2] at hg
          injection hg with hb
          subst hb
          dsimp only
          cases hdry : e.dryRun with
          | true => rfl
          | false =>
            cases hp : e.publish (fit280 (base2 ++ " " ++ picked.url ++ " "
                ++ e.disclosureHashtag)) with
            | error msg => rfl
            | ok pid => rfl

lemma runMain_envLong_finalText :
    (runMain envLong histEmpty).finalText =
      some (fit280 (longBase ++ " " ++ cEcho.url ++ " " ++ envLong.disclosureHashtag)) := by
  apply runMain_finalText_some
  · rw [(pool_of_fields envLong rfl rfl rfl rfl rfl).2]
    rfl
  · rfl

/-- C10: the final published text is `fit280` applied to the generated text,
a space, the selected candidate's url, a space, and the disclosure hashtag;
and for a sufficiently long generated text the fitting step truncates the
url and the hashtag away entirely, so the published output contains
neither as a substring. -/
theorem C10_finalText_truncation (e : Env) (st : HistoryState) :
    (∀ t, (runMain e st).finalText = some t →
      ∃ c base, (runMain e st).pickedC = some c ∧ e.genPost c = Except.ok base ∧
        t = fit280 (base ++ " " ++ c.url ++ " " ++ e.disclosureHashtag)) ∧
    ((runMain envLong histEmpty).finalText = some fittedLong ∧
      occursIn urlX.data fittedLong.data = false ∧
      occursIn tagAd.data fittedLong.data = false) := by
  constructor
  · intro t ht
    rw [runMain_pickedC e st]
    unfold runMain at ht
    cases hfi : freshItems e st with
    | nil =>
      rw [hfi] at ht
      exact absurd ht (by simp)
    | cons i is =>
      rw [hfi] at ht
      dsimp only at ht
      cases hcf : candidatesFor e st (i :: is) with
      | nil =>
        rw [hcf] at ht
        exact absurd ht (by simp)
      | cons c0 cs0 =>
        rw [hcf] at ht
        dsimp only at ht
        cases hsd : sortD (c0 :: cs0) with
        | nil =>
          rw [hsd] at ht
          exact absurd ht (by simp)
        | cons picked rest =>
          rw [hsd] at ht
          dsimp only at ht
          simp only [List.head?_cons]
          cases hg : e.genPost picked with
          | error msg =>
            rw [hg] at ht
            exact absurd ht (by simp)
          | ok base =>
            rw [hg] at ht
            dsimp only at ht
            refine ⟨picked, base, rfl, hg, ?_⟩
            cases hdry : e.dryRun with
            | true =>
              rw [hdry] at ht
              simp only [if_pos] at ht
              exact (Option.some.inj ht).symm
            | false =>
              rw [hdry] at ht
              simp only [Bool.false_eq_true, if_false] at ht
              cases hp : e.publish (fit280 (base ++ " " ++ picked.url ++ " "
                  ++ e.disclosureHashtag)) with
              | error msg =>
                rw [hp] at ht
                exact (Option.some.inj ht).symm
              | ok pid =>
                rw [hp] at ht
                exact (Option.some.inj ht).symm
  · refine ⟨?_, by decide, by decide⟩
    rw [runMain_envLong_finalText]
    congr 1

theorem C10_witness :
    ∃ c base, (runMain envLong histEmpty).pickedC = some c ∧
      envLong.genPost c = Except.ok base ∧
      fittedLong = fit280 (base ++ " " ++ c.url ++ " " ++ envLong.disclosureHashtag) := by
  have h := (C10_finalText_truncation envLong histEmpty).1 fittedLong
    ((C10_finalText_truncation envLong histEmpty).2.1)
  exact h

/-! ## Character-level lemmas for the `cleanTitle` pipeline -/

lemma lowerC_ne_fix {c : Char} (h : lowerC c ≠ c) : isWordChar c = true := by
  unfold lowerC at h
  split at h
  all_goals first
    | decide
    | exact absurd rfl h

lemma isWordChar_of_lowerC {c y : Char} (h : lowerC c = y) (hy : isWordChar y = true) :
    isWordChar c = true := by
  by_cases hc : lowerC c = c
  · rw [hc] at h
    rw [h]
    exact hy
  · exact lowerC_ne_fix hc

lemma dw_eq_self_of_tw_nil {p : Char → Bool} {l : List Char} (h : l.takeWhile p = []) :
    l.dropWhile p = l := by
  cases l with
  | nil => rfl
  | cons c cs =>
    rw [List.takeWhile_cons] at h
    split at h
    · exact absurd h (by simp)
    · rw [List.dropWhile_cons_of_neg (by assumption)]

lemma takeWhile_dw_nil (p : Char → Bool) (l : List Char) :
    (l.dropWhile p).takeWhile p = [] := by
  induction l with
  | nil => rfl
  | cons c cs ih =>
    rw [List.dropWhile_cons]
    split
    · exact ih
    · rw [List.takeWhile_cons_of_neg (by assumption)]

lemma tw_nil_of_append {p : Char → Bool} {a b : List Char}
    (h : (a ++ b).takeWhile p = []) : a.takeWhile p = [] := by
  cases a with
  | nil => rfl
  | cons c cs =>
    rw [List.cons_append, List.takeWhile_cons] at h
    rw [List.takeWhile_cons]
    split at h
    · exact absurd h (by simp)
    · rw [if_neg (by assumption)]

lemma tw_dw_append {tw rest : List Char} (hall : ∀ x ∈ tw, isWordChar x = true)
    (hrest : rest.takeWhile isWordChar = []) :
    (tw ++ rest).takeWhile isWordChar = tw ∧ (tw ++ rest).dropWhile isWordChar = rest := by
  induction tw with
  | nil => exact ⟨hrest, dw_eq_self_of_tw_nil hrest⟩
  | cons t tw ih =>
    have ht := hall t (by simp)
    have h2 := ih (fun x hx => hall x (by simp [hx]))
    constructor
    · rw [List.cons_append, List.takeWhile_cons_of_pos ht, h2.1]
    · rw [List.cons_append, List.dropWhile_cons_of_pos ht, h2.2]

/-! ### `wordRuns` basics -/

lemma wordRuns_nil : wordRuns [] = [] := by rw [wordRuns]

lemma wordRuns_cons_neg {c : Char} {cs : List Char} (h : ¬ isWordChar c = true) :
    wordRuns (c :: cs) = wordRuns cs := by
  rw [wordRuns, if_neg h]

lemma wordRuns_cons_pos {c : Char} {cs : List Char} (h : isWordChar c = true) :
    wordRuns (c :: cs) =
      ((c :: cs).takeWhile isWordChar) :: wordRuns ((c :: cs).dropWhile isWordChar) := by
  rw [wordRuns, if_pos h]

lemma wordRuns_word_append {tw rest : List Char} (hne : tw ≠ [])
    (hall : ∀ x ∈ tw, isWordChar x = true) (hrest : rest.takeWhile isWordChar = []) :
    wordRuns (tw ++ rest) = tw :: wordRuns rest := by
  obtain ⟨t, tw', rfl⟩ := List.exists_cons_of_ne_nil hne
  have ht : isWordChar t = true := hall t (by simp)
  have h12 := tw_dw_append hall hrest
  rw [List.cons_append, wordRuns_cons_pos ht, ← List.cons_append, h12.1, h12.2]

lemma wordRuns_nil_of_nonW {l : List Char} (h : ∀ x ∈ l, ¬ isWordChar x = true) :
    wordRuns l = [] := by
  induction l with
  | nil => exact wordRuns_nil
  | cons c cs ih =>
    rw [wordRuns_cons_neg (h c (by simp))]
    exact ih fun x hx => h x (by simp [hx])

lemma wordRuns_dropWhile_nonW {p : Char → Bool} (hp : ∀ c, p c = true → ¬ isWordChar c = true)
    (l : List Char) : wordRuns (l.dropWhile p) = wordRuns l := by
  induction l with
  | nil => rfl
  | cons c cs ih =>
    rw [List.dropWhile_cons]
    split
    · rw [ih, wordRuns_cons_neg (hp c (by assumption))]
    · rfl

lemma tw_dw_append_nonW {a w : List Char} (hw : ∀ x ∈ w, ¬ isWordChar x = true) :
    (a ++ w).takeWhile isWordChar = a.takeWhile isWordChar ∧
    (a ++ w).dropWhile isWordChar = a.dropWhile isWordChar ++ w := by
  induction a with
  | nil =>
    have htw : w.takeWhile isWordChar = [] := by
      cases w with
      | nil => rfl
      | cons x xs => rw [List.takeWhile_cons_of_neg (hw x (by simp))]
    refine ⟨by rw [List.nil_append]; exact htw, ?_⟩
    rw [List.nil_append]
    simp [dw_eq_self_of_tw_nil htw]
  | cons c a' ih =>
    by_cases hc : isWordChar c = true
    · rw [List.cons_append, List.takeWhile_cons_of_pos hc, List.takeWhile_cons_of_pos hc,
        List.dropWhile_cons_of_pos hc, List.dropWhile_cons_of_pos hc]
      exact ⟨by rw [ih.1], ih.2⟩
    · rw [List.cons_append, List.takeWhile_cons_of_neg hc, List.takeWhile_cons_of_neg hc,
        List.dropWhile_cons_of_neg hc, List.dropWhile_cons_of_neg hc]
      exact ⟨rfl, rfl⟩

lemma wordRuns_append_nonW {w : List Char} (hw : ∀ x ∈ w, ¬ isWordChar x = true) :
    ∀ (n : ℕ) (a : List Char), a.length ≤ n → wordRuns (a ++ w) = wordRuns a := by
  intro n
  induction n with
  | zero =>
    intro a ha
    have : a = [] := List.length_eq_zero.mp (Nat.le_antisymm ha (Nat.zero_le _))
    rw [this, List.nil_append]
    exact (wordRuns_nil_of_nonW hw).trans wordRuns_nil.symm
  | succ n ih =>
    intro a ha
    match a with
    | [] =>
      rw [List.nil_append, wordRuns_nil]
      exact wordRuns_nil_of_nonW hw
    | c :: a' =>
      by_cases hc : isWordChar c = true
      · rw [List.cons_append, wordRuns_cons_pos hc, ← List.cons_append]
        have h12 := tw_dw_append_nonW (a := c :: a') hw
        rw [h12.1, h12.2, wordRuns_cons_pos hc]
        have hlen : ((c :: a').dropWhile isWordChar).length ≤ n := by
          rw [List.dropWhile_cons_of_pos hc]
          have := length_dw_le isWordChar a'
          simp only [List.length_cons, Nat.succ_le_succ_iff] at ha
          omega
        rw [ih _ hlen]
      · rw [List.cons_append, wordRuns_cons_neg hc, wordRuns_cons_neg hc]
        apply ih
        simp only [List.length_cons, Nat.succ_le_succ_iff] at ha
        exact le_trans (by simp) ha

/-! ### `priceStrip`: all digits are removed; digit-free input is untouched -/

lemma priceStrip_noDigit_n :
    ∀ (n : ℕ) (l : List Char), l.length ≤ n → ∀ c ∈ priceStrip l, isDigitC c = false := by
  intro n
  induction n with
  | zero =>
    intro l hl c hc
    have h0 : l = [] := List.length_eq_zero.mp (Nat.le_antisymm hl (Nat.zero_le _))
    rw [h0] at hc
    simp [priceStrip] at hc
  | succ n ih =>
    intro l hl c hc
    match l with
    | [] => simp [priceStrip] at hc
    | a :: as =>
      simp only [List.length_cons, Nat.succ_le_succ_iff] at hl
      rw [priceStrip.eq_def] at hc
      dsimp only at hc
      by_cases hd : isDigitC a = true
      · rw [if_pos hd] at hc
        refine ih (dropNum (a :: as)) ?_ c hc
        have h5 := @dropNum_lt_of_digit a as hd
        simp only [List.length_cons] at h5
        omega
      · rw [if_neg hd] at hc
        by_cases hdol : a = '$'
        · rw [if_pos hdol] at hc
          cases as with
          | nil =>
            simp only [List.mem_singleton] at hc
            rw [hc]
            decide
          | cons d ds =>
            dsimp only at hc
            by_cases hdd : isDigitC d = true
            · rw [if_pos hdd] at hc
              refine ih (dropNum (d :: ds)) ?_ c hc
              have := dropNum_le (d :: ds)
              simp only [List.length_cons] at hl this ⊢
              omega
            · rw [if_neg hdd] at hc
              rcases List.mem_cons.mp hc with h | h
              · rw [h]
                decide
              · exact ih (d :: ds) hl c h
        · rw [if_neg hdol] at hc
          rcases List.mem_cons.mp hc with h | h
          · rw [h]
            simpa using hd
          · exact ih as hl c h

lemma priceStrip_noDigit (l : List Char) : ∀ c ∈ priceStrip l, isDigitC c = false :=
  priceStrip_noDigit_n l.length l le_rfl

lemma priceStrip_id_n :
    ∀ (n : ℕ) (l : List Char), l.length ≤ n → (∀ c ∈ l, isDigitC c = false) →
      priceStrip l = l := by
  intro n
  induction n with
  | zero =>
    intro l hl _
    have h0 : l = [] := List.length_eq_zero.mp (Nat.le_antisymm hl (Nat.zero_le _))
    rw [h0]
    simp [priceStrip]
  | succ n ih =>
    intro l hl hnd
    match l with
    | [] => simp [priceStrip]
    | a :: as =>
      simp only [List.length_cons, Nat.succ_le_succ_iff] at hl
      rw [priceStrip.eq_def]
      dsimp only
      have hda : isDigitC a = false := hnd a (by simp)
      rw [if_neg (by simp [hda])]
      by_cases hdol : a = '$'
      · rw [if_pos hdol]
        cases as with
        | nil => rw [hdol]
        | cons d ds =>
          dsimp only
          have hdd : isDigitC d = false := hnd d (by simp)
          rw [if_neg (by simp [hdd])]
          rw [ih (d :: ds) hl (fun x hx => hnd x (by simp [List.mem_cons.mp hx]))]
          rw [hdol]
      · rw [if_neg hdol]
        rw [ih as hl (fun x hx => hnd x (by simp [hx]))]

lemma priceStrip_id_of_noDigit {l : List Char} (h : ∀ c ∈ l, isDigitC c = false) :
    priceStrip l = l :=
  priceStrip_id_n l.length l le_rfl h

/-! ### `promoStripAux`: unfolding lemmas and the word-run characterization -/

lemma psA_nil (b : Bool) : promoStripAux b [] = [] := by
  rw [promoStripAux.eq_def]

lemma psA_true_cons (c : Char) (cs : List Char) :
    promoStripAux true (c :: cs) = c :: promoStripAux (isWordChar c) cs := by
  rw [promoStripAux.eq_def]
  rfl

lemma psA_false_cons (c : Char) (cs : List Char) :
    promoStripAux false (c :: cs) =
      match findPromo (c :: cs) with
      | some rest => promoStripAux true rest
      | none => c :: promoStripAux (isWordChar c) cs := by
  rw [promoStripAux.eq_def]
  dsimp only
  cases hfp : findPromo (c :: cs) with
  | none => rfl
  | some rest => rfl

lemma wordAt_eq (w : List Char) (hW : ∀ y ∈ w, isWordChar y = true) :
    ∀ l, wordAt w l =
      if (l.takeWhile isWordChar).map lowerC = w then some (l.dropWhile isWordChar)
      else none := by
  induction w with
  | nil =>
    intro l
    cases l with
    | nil => rfl
    | cons c cs =>
      by_cases hc : isWordChar c = true
      · have hb : wordAt [] (c :: cs) = none := by
          unfold wordAt ciStrip boundOk
          dsimp only
          rw [hc]
          rfl
        rw [hb, List.takeWhile_cons_of_pos hc, List.map_cons,
          if_neg (by simp)]
      · have hb : wordAt [] (c :: cs) = some (c :: cs) := by
          unfold wordAt ciStrip boundOk
          dsimp only
          rw [show isWordChar c = false from by simpa using hc]
          rfl
        rw [hb, List.takeWhile_cons_of_neg hc, List.dropWhile_cons_of_neg hc, List.map_nil,
          if_pos rfl]
  | cons y w ihw =>
    intro l
    cases l with
    | nil =>
      have hb : wordAt (y :: w) [] = none := rfl
      rw [hb, List.takeWhile_nil, List.map_nil, if_neg (by simp)]
    | cons c cs =>
      by_cases hcy : lowerC c = y
      · have hwc : isWordChar c = true := isWordChar_of_lowerC hcy (hW y (by simp))
        have hstep : ciStrip (y :: w) (c :: cs) = ciStrip w cs := by
          show (if lowerC c = y then ciStrip w cs else none) = ciStrip w cs
          rw [if_pos hcy]
        have hL : wordAt (y :: w) (c :: cs) = wordAt w cs := by
          unfold wordAt
          rw [hstep]
        rw [hL, ihw (fun x hx => hW x (by simp [hx])) cs,
          List.takeWhile_cons_of_pos hwc, List.dropWhile_cons_of_pos hwc, List.map_cons, hcy]
        by_cases hm : (cs.takeWhile isWordChar).map lowerC = w
        · rw [if_pos hm, if_pos (by rw [hm])]
        · rw [if_neg hm, if_neg (by intro hcon; exact hm (by injection hcon))]
      · have hstep : ciStrip (y :: w) (c :: cs) = none := by
          show (if lowerC c = y then ciStrip w cs else none) = none
          rw [if_neg hcy]
        have hL : wordAt (y :: w) (c :: cs) = none := by
          unfold wordAt
          rw [hstep]
        rw [hL]
        by_cases hwc : isWordChar c = true
        · rw [List.takeWhile_cons_of_pos hwc, List.map_cons,
            if_neg (by intro hcon; exact hcy (by injection hcon))]
        · rw [List.takeWhile_cons_of_neg hwc, List.map_nil, if_neg (by simp)]

lemma findPromo_eq (l : List Char) :
    findPromo l =
      if (l.takeWhile isWordChar).map lowerC ∈ promoWords then some (l.dropWhile isWordChar)
      else none := by
  unfold findPromo
  rw [wordAt_eq wFree (by decide) l, wordAt_eq wDeal (by decide) l,
    wordAt_eq wSave (by decide) l, wordAt_eq wOff (by decide) l,
    wordAt_eq wCoupon (by decide) l]
  by_cases h1 : (l.takeWhile isWordChar).map lowerC = wFree
  · rw [if_pos h1,
      if_pos (show (l.takeWhile isWordChar).map lowerC ∈ promoWords by rw [h1]; decide)]
  · rw [if_neg h1]
    by_cases h2 : (l.takeWhile isWordChar).map lowerC = wDeal
    · rw [if_pos h2,
        if_pos (show (l.takeWhile isWordChar).map lowerC ∈ promoWords by rw [h2]; decide)]
    · rw [if_neg h2]
      by_cases h3 : (l.takeWhile isWordChar).map lowerC = wSave
      · rw [if_pos h3,
          if_pos (show (l.takeWhile isWordChar).map lowerC ∈ promoWords by rw [h3]; decide)]
      · rw [if_neg h3]
        by_cases h4 : (l.takeWhile isWordChar).map lowerC = wOff
        · rw [if_pos h4,
            if_pos (show (l.takeWhile isWordChar).map lowerC ∈ promoWords by rw [h4]; decide)]
        · rw [if_neg h4]
          by_cases h5 : (l.takeWhile isWordChar).map lowerC = wCoupon
          · rw [if_pos h5,
              if_pos (show (l.takeWhile isWordChar).map lowerC ∈ promoWords by
                rw [h5]; decide)]
          · rw [if_neg h5, if_neg (by simp [promoWords, h1, h2, h3, h4, h5])]

lemma psA_true_eq :
    ∀ (n : ℕ) (l : List Char), l.length ≤ n →
      (l.dropWhile isWordChar = [] → promoStripAux true l = l) ∧
      (∀ c0 r0, l.dropWhile isWordChar = c0 :: r0 →
        promoStripAux true l = l.takeWhile isWordChar ++ c0 :: promoStripAux false r0) := by
  intro n
  induction n with
  | zero =>
    intro l hl
    have h0 : l = [] := List.length_eq_zero.mp (Nat.le_antisymm hl (Nat.zero_le _))
    subst h0
    exact ⟨fun _ => psA_nil true, fun c0 r0 h => absurd h (by simp)⟩
  | succ n ih =>
    intro l hl
    match l with
    | [] => exact ⟨fun _ => psA_nil true, fun c0 r0 h => absurd h (by simp)⟩
    | c :: cs =>
      simp only [List.length_cons, Nat.succ_le_succ_iff] at hl
      rw [psA_true_cons]
      by_cases hc : isWordChar c = true
      · rw [List.dropWhile_cons_of_pos hc, List.takeWhile_cons_of_pos hc, hc]
        constructor
        · intro hdw
          rw [(ih cs hl).1 hdw]
        · intro c0 r0 hdw
          rw [(ih cs hl).2 c0 r0 hdw, List.cons_append]
      · rw [List.dropWhile_cons_of_neg hc, List.takeWhile_cons_of_neg hc]
        refine ⟨fun hdw => absurd hdw (by simp), ?_⟩
        intro c0 r0 hdw
        injection hdw with h1 h2
        subst h1
        subst h2
        rw [List.nil_append, show isWordChar c = false from by simpa using hc]

lemma mem_of_mem_dropWhile {p : Char → Bool} {c : Char} :
    ∀ {l : List Char}, c ∈ l.dropWhile p → c ∈ l := by
  intro l
  induction l with
  | nil => simp [List.dropWhile]
  | cons a as ih =>
    rw [List.dropWhile_cons]
    intro h
    split at h
    · exact List.mem_cons_of_mem _ (ih h)
    · exact h

lemma mem_of_mem_takeWhile {p : Char → Bool} {c : Char} :
    ∀ {l : List Char}, c ∈ l.takeWhile p → c ∈ l := by
  intro l
  induction l with
  | nil => simp [List.takeWhile]
  | cons a as ih =>
    rw [List.takeWhile_cons]
    intro h
    split at h
    · rcases List.mem_cons.mp h with h | h
      · simp [h]
      · exact List.mem_cons_of_mem _ (ih h)
    · simp at h

/-! ### No promotional word survives as a whole word, and promo-free text is untouched -/

def noPromoRuns (l : List Char) : Prop :=
  ∀ r ∈ wordRuns l, r.map lowerC ∉ promoWords

lemma tw_all (p : Char → Bool) : ∀ (l : List Char), ∀ x ∈ l.takeWhile p, p x = true := by
  intro l
  induction l with
  | nil => simp [List.takeWhile]
  | cons c cs ih =>
    rw [List.takeWhile_cons]
    split
    · intro x hx
      rcases List.mem_cons.mp hx with h | h
      · rw [h]
        assumption
      · exact ih x h
    · simp

lemma dw_head_neg {p : Char → Bool} {m : List Char} {c0 : Char} {r0 : List Char}
    (h : m.dropWhile p = c0 :: r0) : ¬ p c0 = true := by
  have := takeWhile_dw_nil p m
  rw [h, List.takeWhile_cons] at this
  split at this
  · exact absurd this (by simp)
  · assumption

lemma psA_sub :
    ∀ (n : ℕ) (b : Bool) (l : List Char), l.length ≤ n →
      ∀ c ∈ promoStripAux b l, c ∈ l := by
  intro n
  induction n with
  | zero =>
    intro b l hl c hc
    have h0 : l = [] := List.length_eq_zero.mp (Nat.le_antisymm hl (Nat.zero_le _))
    subst h0
    rw [psA_nil] at hc
    simp at hc
  | succ n ih =>
    intro b l hl c hc
    match l with
    | [] =>
      rw [psA_nil] at hc
      simp at hc
    | a :: as =>
      simp only [List.length_cons, Nat.succ_le_succ_iff] at hl
      cases b with
      | true =>
        rw [psA_true_cons] at hc
        rcases List.mem_cons.mp hc with h | h
        · simp [h]
        · exact List.mem_cons_of_mem _ (ih _ as hl c h)
      | false =>
        rw [psA_false_cons] at hc
        cases hfp : findPromo (a :: as) with
        | none =>
          rw [hfp] at hc
          dsimp only at hc
          rcases List.mem_cons.mp hc with h | h
          · simp [h]
          · exact List.mem_cons_of_mem _ (ih _ as hl c h)
        | some rest =>
          rw [hfp] at hc
          dsimp only at hc
          have hrest : rest = (a :: as).dropWhile isWordChar := by
            rw [findPromo_eq] at hfp
            split at hfp
            · exact (Option.some.inj hfp).symm
            · exact absurd hfp (by simp)
          have hlen : rest.length ≤ n := by
            have := findPromo_length hfp
            simp only [List.length_cons] at this
            omega
          have := ih true rest hlen c hc
          rw [hrest] at this
          exact mem_of_mem_dropWhile this

lemma psA_noPromo :
    ∀ (n : ℕ) (l : List Char), l.length ≤ n → noPromoRuns (promoStripAux false l) := by
  intro n
  induction n with
  | zero =>
    intro l hl
    have h0 : l = [] := List.length_eq_zero.mp (Nat.le_antisymm hl (Nat.zero_le _))
    subst h0
    rw [psA_nil]
    intro r hr
    rw [wordRuns_nil] at hr
    simp at hr
  | succ n ih =>
    intro l hl
    match l with
    | [] =>
      rw [psA_nil]
      intro r hr
      rw [wordRuns_nil] at hr
      simp at hr
    | c :: cs =>
      simp only [List.length_cons, Nat.succ_le_succ_iff] at hl
      rw [psA_false_cons]
      by_cases hW : isWordChar c = true
      · by_cases hpm : ((c :: cs).takeWhile isWordChar).map lowerC ∈ promoWords
        · have hfp : findPromo (c :: cs) = some ((c :: cs).dropWhile isWordChar) := by
            rw [findPromo_eq, if_pos hpm]
          rw [hfp]
          dsimp only
          cases hrest : (c :: cs).dropWhile isWordChar with
          | nil =>
            rw [(psA_true_eq n [] (by simp)).1 (by simp [List.dropWhile])]
            intro r hr
            rw [wordRuns_nil] at hr
            simp at hr
          | cons c0 r0 =>
            have hnc0 : ¬ isWordChar c0 = true := dw_head_neg hrest
            have hlenr : (c0 :: r0).length ≤ n := by
              rw [List.dropWhile_cons_of_pos hW] at hrest
              have := length_dw_le isWordChar cs
              rw [hrest] at this
              simp only [List.length_cons] at this ⊢
              omega
            have hdwr : (c0 :: r0).dropWhile isWordChar = c0 :: r0 :=
              dw_eq_self_of_tw_nil (by rw [List.takeWhile_cons_of_neg hnc0])
            rw [(psA_true_eq (c0 :: r0).length (c0 :: r0) le_rfl).2 c0 r0 hdwr]
            rw [List.takeWhile_cons_of_neg hnc0, List.nil_append]
            intro r hr
            rw [wordRuns_cons_neg hnc0] at hr
            have hlenr0 : r0.length ≤ n := by
              simp only [List.length_cons] at hlenr
              omega
            exact ih r0 hlenr0 r hr
        · have hfp : findPromo (c :: cs) = none := by
            rw [findPromo_eq, if_neg hpm]
          rw [hfp]
          dsimp only
          rw [hW]
          cases hrest : cs.dropWhile isWordChar with
          | nil =>
            rw [(psA_true_eq n cs hl).1 hrest]
            intro r hr
            rw [wordRuns_cons_pos hW, List.dropWhile_cons_of_pos hW, hrest,
              wordRuns_nil] at hr
            simp only [List.mem_singleton] at hr
            rw [hr]
            exact hpm
          | cons c0 r0 =>
            have hnc0 : ¬ isWordChar c0 = true := dw_head_neg hrest
            rw [(psA_true_eq n cs hl).2 c0 r0 hrest]
            rw [show c :: (cs.takeWhile isWordChar ++ c0 :: promoStripAux false r0)
                = (c :: cs.takeWhile isWordChar) ++ c0 :: promoStripAux false r0 from rfl]
            rw [show c :: cs.takeWhile isWordChar = (c :: cs).takeWhile isWordChar from
              (List.takeWhile_cons_of_pos hW).symm]
            intro r hr
            rw [wordRuns_word_append (by simp [List.takeWhile_cons_of_pos hW])
              (tw_all isWordChar (c :: cs))
              (by rw [List.takeWhile_cons_of_neg hnc0]) ] at hr
            rcases List.mem_cons.mp hr with h | h
            · rw [h]
              exact hpm
            · rw [wordRuns_cons_neg hnc0] at h
              have hlenr0 : r0.length ≤ n := by
                have := length_dw_le isWordChar cs
                rw [hrest] at this
                simp only [List.length_cons] at this
                omega
              exact ih r0 hlenr0 r h
      · have hfp : findPromo (c :: cs) = none := by
          rw [findPromo_eq, List.takeWhile_cons_of_neg hW, if_neg (by decide)]
        rw [hfp]
        dsimp only
        rw [show isWordChar c = false from by simpa using hW]
        intro r hr
        rw [wordRuns_cons_neg hW] at hr
        exact ih cs hl r hr

lemma psA_id :
    ∀ (n : ℕ) (l : List Char), l.length ≤ n → noPromoRuns l →
      promoStripAux false l = l := by
  intro n
  induction n with
  | zero =>
    intro l hl _
    have h0 : l = [] := List.length_eq_zero.mp (Nat.le_antisymm hl (Nat.zero_le _))
    subst h0
    exact psA_nil false
  | succ n ih =>
    intro l hl hnp
    match l with
    | [] => exact psA_nil false
    | c :: cs =>
      simp only [List.length_cons, Nat.succ_le_succ_iff] at hl
      rw [psA_false_cons]
      by_cases hW : isWordChar c = true
      · have htw : ((c :: cs).takeWhile isWordChar) ∈ wordRuns (c :: cs) := by
          rw [wordRuns_cons_pos hW]
          simp
        have hpm : ¬ ((c :: cs).takeWhile isWordChar).map lowerC ∈ promoWords :=
          hnp _ htw
        have hfp : findPromo (c :: cs) = none := by
          rw [findPromo_eq, if_neg hpm]
        rw [hfp]
        dsimp only
        rw [hW]
        cases hrest : cs.dropWhile isWordChar with
        | nil =>
          rw [(psA_true_eq n cs hl).1 hrest]
        | cons c0 r0 =>
          have hnc0 : ¬ isWordChar c0 = true := dw_head_neg hrest
          rw [(psA_true_eq n cs hl).2 c0 r0 hrest]
          have hr0 : promoStripAux false r0 = r0 := by
            apply ih r0
            · have := length_dw_le isWordChar cs
              rw [hrest] at this
              simp only [List.length_cons] at this
              omega
            · intro r hr
              apply hnp
              rw [wordRuns_cons_pos hW, List.dropWhile_cons_of_pos hW, hrest,
                wordRuns_cons_neg hnc0]
              exact List.mem_cons_of_mem _ hr
          rw [hr0]
          conv_rhs => rw [show cs = cs.takeWhile isWordChar ++ cs.dropWhile isWordChar from
            (List.takeWhile_append_dropWhile isWordChar cs).symm]
          rw [hrest]
      · have hfp : findPromo (c :: cs) = none := by
          rw [findPromo_eq, List.takeWhile_cons_of_neg hW, if_neg (by decide)]
        rw [hfp]
        dsimp only
        rw [show isWordChar c = false from by simpa using hW]
        rw [ih cs hl (fun r hr => hnp r (by rw [wordRuns_cons_neg hW]; exact hr))]

lemma promoStrip_noPromo (l : List Char) : noPromoRuns (promoStrip l) :=
  psA_noPromo l.length l le_rfl

lemma promoStrip_id_of_noPromo {l : List Char} (h : noPromoRuns l) : promoStrip l = l :=
  psA_id l.length l le_rfl h

lemma promoStrip_sub (l : List Char) : ∀ c ∈ promoStrip l, c ∈ l :=
  psA_sub l.length false l le_rfl

/-! ### Whitespace collapsing preserves word runs and normalizes whitespace -/

lemma jsWs_not_word {c : Char} (h : jsWs c = true) : ¬ isWordChar c = true := by
  simp only [jsWs, Bool.or_eq_true, decide_eq_true_eq] at h
  rcases h with ((((h | h) | h) | h) | h) | h <;> (subst h; decide)

lemma collapseWs_nil : collapseWs [] = [] := by
  rw [collapseWs.eq_def]

lemma collapseWs_cons_ws {c : Char} {cs : List Char} (h : jsWs c = true) :
    collapseWs (c :: cs) = ' ' :: collapseWs (cs.dropWhile jsWs) := by
  rw [collapseWs.eq_def]
  dsimp only
  rw [if_pos h]

lemma collapseWs_cons_nws {c : Char} {cs : List Char} (h : ¬ jsWs c = true) :
    collapseWs (c :: cs) = c :: collapseWs cs := by
  rw [collapseWs.eq_def]
  dsimp only
  rw [if_neg h]

lemma collapseWs_sub :
    ∀ (n : ℕ) (l : List Char), l.length ≤ n →
      ∀ c ∈ collapseWs l, c ∈ l ∨ c = ' ' := by
  intro n
  induction n with
  | zero =>
    intro l hl c hc
    have h0 : l = [] := List.length_eq_zero.mp (Nat.le_antisymm hl (Nat.zero_le _))
    subst h0
    rw [collapseWs_nil] at hc
    simp at hc
  | succ n ih =>
    intro l hl c hc
    match l with
    | [] =>
      rw [collapseWs_nil] at hc
      simp at hc
    | a :: as =>
      simp only [List.length_cons, Nat.succ_le_succ_iff] at hl
      by_cases hws : jsWs a = true
      · rw [collapseWs_cons_ws hws] at hc
        rcases List.mem_cons.mp hc with h | h
        · exact Or.inr h
        · have hlen : (as.dropWhile jsWs).length ≤ n :=
            le_trans (length_dw_le jsWs as) hl
          rcases ih (as.dropWhile jsWs) hlen c h with h2 | h2
          · exact Or.inl (List.mem_cons_of_mem _ (mem_of_mem_dropWhile h2))
          · exact Or.inr h2
      · rw [collapseWs_cons_nws hws] at hc
        rcases List.mem_cons.mp hc with h | h
        · exact Or.inl (by simp [h])
        · rcases ih as hl c h with h2 | h2
          · exact Or.inl (List.mem_cons_of_mem _ h2)
          · exact Or.inr h2

lemma twW_nil_collapseWs {l : List Char} (h : l.takeWhile isWordChar = []) :
    (collapseWs l).takeWhile isWordChar = [] := by
  match l with
  | [] => rw [collapseWs_nil]; exact h
  | c :: cs =>
    have hnc : ¬ isWordChar c = true := by
      intro hw
      rw [List.takeWhile_cons_of_pos hw] at h
      exact absurd h (by simp)
    by_cases hws : jsWs c = true
    · rw [collapseWs_cons_ws hws, List.takeWhile_cons_of_neg (by decide)]
    · rw [collapseWs_cons_nws hws, List.takeWhile_cons_of_neg hnc]

lemma twWs_nil_collapseWs {l : List Char} (h : l.takeWhile jsWs = []) :
    (collapseWs l).takeWhile jsWs = [] := by
  match l with
  | [] => rw [collapseWs_nil]; exact h
  | c :: cs =>
    have hnc : ¬ jsWs c = true := by
      intro hw
      rw [List.takeWhile_cons_of_pos hw] at h
      exact absurd h (by simp)
    rw [collapseWs_cons_nws hnc, List.takeWhile_cons_of_neg hnc]

lemma collapseWs_wordPre {tw : List Char} (rest : List Char)
    (hall : ∀ x ∈ tw, isWordChar x = true) :
    collapseWs (tw ++ rest) = tw ++ collapseWs rest := by
  induction tw with
  | nil => rw [List.nil_append, List.nil_append]
  | cons t tw' ih =>
    have ht : isWordChar t = true := hall t (by simp)
    have hnws : ¬ jsWs t = true := fun hws => jsWs_not_word hws ht
    rw [List.cons_append, collapseWs_cons_nws hnws,
      ih fun x hx => hall x (by simp [hx]), List.cons_append]

lemma wordRuns_collapseWs :
    ∀ (n : ℕ) (l : List Char), l.length ≤ n → wordRuns (collapseWs l) = wordRuns l := by
  intro n
  induction n with
  | zero =>
    intro l hl
    have h0 : l = [] := List.length_eq_zero.mp (Nat.le_antisymm hl (Nat.zero_le _))
    subst h0
    rw [collapseWs_nil]
  | succ n ih =>
    intro l hl
    match l with
    | [] => rw [collapseWs_nil]
    | c :: cs =>
      simp only [List.length_cons, Nat.succ_le_succ_iff] at hl
      by_cases hws : jsWs c = true
      · have hnW : ¬ isWordChar c = true := jsWs_not_word hws
        rw [collapseWs_cons_ws hws, wordRuns_cons_neg (by decide),
          ih (cs.dropWhile jsWs) (le_trans (length_dw_le jsWs cs) hl),
          wordRuns_dropWhile_nonW (fun d hd => jsWs_not_word hd) cs,
          wordRuns_cons_neg hnW]
      · by_cases hW : isWordChar c = true
        · have hsplit : c :: cs =
              (c :: cs).takeWhile isWordChar ++ (c :: cs).dropWhile isWordChar :=
            (List.takeWhile_append_dropWhile isWordChar (c :: cs)).symm
          have hlenr : ((c :: cs).dropWhile isWordChar).length ≤ n := by
            rw [List.dropWhile_cons_of_pos hW]
            exact le_trans (length_dw_le isWordChar cs) hl
          conv_lhs => rw [hsplit]
          rw [collapseWs_wordPre _ (tw_all isWordChar (c :: cs))]
          rw [wordRuns_word_append (by simp [List.takeWhile_cons_of_pos hW])
            (tw_all isWordChar (c :: cs))
            (twW_nil_collapseWs (takeWhile_dw_nil isWordChar (c :: cs)))]
          rw [ih _ hlenr, wordRuns_cons_pos hW]
        · rw [collapseWs_cons_nws hws, wordRuns_cons_neg hW, wordRuns_cons_neg hW,
            ih cs hl]

def colNorm : List Char → Prop
  | [] => True
  | c :: cs => (jsWs c = true → c = ' ' ∧ cs.takeWhile jsWs = []) ∧ colNorm cs

lemma colNorm_collapseWs :
    ∀ (n : ℕ) (l : List Char), l.length ≤ n → colNorm (collapseWs l) := by
  intro n
  induction n with
  | zero =>
    intro l hl
    have h0 : l = [] := List.length_eq_zero.mp (Nat.le_antisymm hl (Nat.zero_le _))
    subst h0
    rw [collapseWs_nil]
    trivial
  | succ n ih =>
    intro l hl
    match l with
    | [] =>
      rw [collapseWs_nil]
      trivial
    | c :: cs =>
      simp only [List.length_cons, Nat.succ_le_succ_iff] at hl
      by_cases hws : jsWs c = true
      · rw [collapseWs_cons_ws hws]
        refine ⟨fun _ => ⟨rfl, ?_⟩, ih _ (le_trans (length_dw_le jsWs cs) hl)⟩
        exact twWs_nil_collapseWs (takeWhile_dw_nil jsWs cs)
      · rw [collapseWs_cons_nws hws]
        exact ⟨fun h => absurd h hws, ih cs hl⟩

lemma collapseWs_id_of_colNorm : ∀ {l : List Char}, colNorm l → collapseWs l = l := by
  intro l
  induction l with
  | nil => exact fun _ => collapseWs_nil
  | cons c cs ih =>
    intro h
    by_cases hws : jsWs c = true
    · obtain ⟨hsp, htw⟩ := h.1 hws
      rw [collapseWs_cons_ws hws, dw_eq_self_of_tw_nil htw, ih h.2, hsp]
    · rw [collapseWs_cons_nws hws, ih h.2]

lemma colNorm_append_left : ∀ {a : List Char} (b : List Char), colNorm (a ++ b) → colNorm a := by
  intro a
  induction a with
  | nil => exact fun _ _ => trivial
  | cons c cs ih =>
    intro b h
    rw [List.cons_append] at h
    refine ⟨fun hws => ⟨(h.1 hws).1, ?_⟩, ih b h.2⟩
    have := (h.1 hws).2
    cases cs with
    | nil => rfl
    | cons d ds =>
      rw [List.cons_append, List.takeWhile_cons] at this
      rw [List.takeWhile_cons]
      split at this
      · exact absurd this (by simp)
      · rw [if_neg (by assumption)]

lemma colNorm_dropWhile (p : Char → Bool) :
    ∀ {l : List Char}, colNorm l → colNorm (l.dropWhile p) := by
  intro l
  induction l with
  | nil => exact fun _ => trivial
  | cons c cs ih =>
    intro h
    rw [List.dropWhile_cons]
    split
    · exact ih h.2
    · exact h

/-! ### `.trim()`: right trim via reversal, decomposition, idempotence -/

lemma trimRight_cons (c : Char) (cs : List Char) :
    trimRight (c :: cs) =
      match trimRight cs with
      | [] => if jsWs c then [] else [c]
      | r :: rs => c :: r :: rs := rfl

lemma trimRight_eq (l : List Char) : trimRight l = (l.reverse.dropWhile jsWs).reverse := by
  induction l with
  | nil => rfl
  | cons c cs ih =>
    rw [List.reverse_cons, List.dropWhile_append, trimRight_cons]
    cases h : trimRight cs with
    | nil =>
      have hnil : cs.reverse.dropWhile jsWs = [] := by
        rw [ih] at h
        simpa using congrArg List.reverse h
      rw [hnil]
      dsimp only
      simp only [List.isEmpty_nil, if_true]
      by_cases hws : jsWs c = true
      · rw [if_pos hws, List.dropWhile_cons_of_pos hws]
        rfl
      · rw [if_neg hws, List.dropWhile_cons_of_neg hws]
        rfl
    | cons r rs =>
      have hne : cs.reverse.dropWhile jsWs ≠ [] := by
        intro h0
        rw [ih, h0] at h
        exact absurd h (by simp)
      rw [if_neg fun hemp => hne (List.isEmpty_iff.mp hemp)]
      dsimp only
      rw [List.reverse_append, ← ih, h]
      rfl

lemma trimRight_decomp (l : List Char) :
    ∃ w, (∀ x ∈ w, jsWs x = true) ∧ l = trimRight l ++ w := by
  refine ⟨(l.reverse.takeWhile jsWs).reverse, fun x hx => ?_, ?_⟩
  · exact tw_all jsWs l.reverse x (List.mem_reverse.mp hx)
  · rw [trimRight_eq]
    conv_lhs => rw [← List.reverse_reverse l,
      ← List.takeWhile_append_dropWhile jsWs l.reverse]
    rw [List.reverse_append]

lemma trimRight_idem (l : List Char) : trimRight (trimRight l) = trimRight l := by
  rw [trimRight_eq l, trimRight_eq, List.reverse_reverse,
    dw_eq_self_of_tw_nil (takeWhile_dw_nil jsWs l.reverse)]

lemma trimRight_sub {l : List Char} {c : Char} (h : c ∈ trimRight l) : c ∈ l := by
  obtain ⟨w, _, hl⟩ := trimRight_decomp l
  rw [hl]
  exact List.mem_append_left _ h

lemma takeWhile_trimRight {l : List Char} (h : l.takeWhile jsWs = []) :
    (trimRight l).takeWhile jsWs = [] := by
  obtain ⟨w, _, hl⟩ := trimRight_decomp l
  cases ht : trimRight l with
  | nil => rfl
  | cons r rs =>
    rw [ht] at hl
    have hr : ¬ jsWs r = true := by
      intro hws
      rw [hl, List.cons_append, List.takeWhile_cons_of_pos hws] at h
      exact absurd h (by simp)
    rw [List.takeWhile_cons_of_neg hr]

lemma wordRuns_trimRight (l : List Char) : wordRuns (trimRight l) = wordRuns l := by
  obtain ⟨w, hw, hl⟩ := trimRight_decomp l
  conv_rhs => rw [hl]
  exact (wordRuns_append_nonW (fun x hx => jsWs_not_word (hw x hx))
    (trimRight l).length _ le_rfl).symm

lemma colNorm_trimRight {l : List Char} (h : colNorm l) : colNorm (trimRight l) := by
  obtain ⟨w, _, hl⟩ := trimRight_decomp l
  rw [hl] at h
  exact colNorm_append_left w h

lemma trimWs_sub {l : List Char} {c : Char} (h : c ∈ trimWs l) : c ∈ l :=
  mem_of_mem_dropWhile (trimRight_sub h)

lemma wordRuns_trimWs (l : List Char) : wordRuns (trimWs l) = wordRuns l := by
  rw [trimWs, wordRuns_trimRight,
    wordRuns_dropWhile_nonW (fun c hc => jsWs_not_word hc)]

lemma colNorm_trimWs {l : List Char} (h : colNorm l) : colNorm (trimWs l) :=
  colNorm_trimRight (colNorm_dropWhile jsWs h)

lemma tw_nil_trimWs (l : List Char) : (trimWs l).takeWhile jsWs = [] :=
  takeWhile_trimRight (takeWhile_dw_nil jsWs l)

lemma trimWs_trimWs (l : List Char) : trimWs (trimWs l) = trimWs l := by
  conv_lhs => rw [trimWs]
  rw [dw_eq_self_of_tw_nil (tw_nil_trimWs l)]
  conv_rhs => rw [trimWs]
  exact trimRight_idem _

/-! ### Assembled facts about `cleanTitle` -/

lemma cleanList_noDigit (l : List Char) : ∀ c ∈ cleanList l, isDigitC c = false := by
  intro c hc
  rw [cleanList] at hc
  have h1 : c ∈ collapseWs (promoStrip (priceStrip l)) := trimWs_sub hc
  rcases collapseWs_sub (promoStrip (priceStrip l)).length _ le_rfl c h1 with h2 | h2
  · exact priceStrip_noDigit l c (promoStrip_sub _ c h2)
  · rw [h2]
    decide

lemma cleanList_noPromo (l : List Char) : noPromoRuns (cleanList l) := by
  intro r hr
  rw [cleanList, wordRuns_trimWs,
    wordRuns_collapseWs (promoStrip (priceStrip l)).length _ le_rfl] at hr
  exact promoStrip_noPromo (priceStrip l) r hr

lemma cleanList_colNorm (l : List Char) : colNorm (cleanList l) := by
  rw [cleanList]
  exact colNorm_trimWs (colNorm_collapseWs (promoStrip (priceStrip l)).length _ le_rfl)

lemma cleanList_idem (l : List Char) : cleanList (cleanList l) = cleanList l := by
  have expand : ∀ m, cleanList m = trimWs (collapseWs (promoStrip (priceStrip m))) :=
    fun m => rfl
  have h4 : trimWs (cleanList l) = cleanList l := by
    rw [cleanList, trimWs_trimWs]
  rw [expand (cleanList l), priceStrip_id_of_noDigit (cleanList_noDigit l),
    promoStrip_id_of_noPromo (cleanList_noPromo l),
    collapseWs_id_of_colNorm (cleanList_colNorm l), h4]

unseal priceStrip promoStripAux collapseWs in
/-- C5: counterexample. The spec says `normalize` leaves no substring matching the
removed patterns and that the Echo deal title normalizes to "Amazon Echo Dot".
In fact the punctuation "!!" survives, so the title normalizes to
"Amazon Echo Dot !!", and a currency symbol not followed by digits survives:
"$ Off" normalizes to "$". -/
theorem C5_counterexample :
    cleanTitle titleEcho = cleanEcho ∧
    ¬ cleanTitle titleEcho = "Amazon Echo Dot" ∧
    cleanTitle "$ Off" = "$" :=
  ⟨by decide, by decide, by decide⟩

unseal priceStrip promoStripAux collapseWs in
/-- C5: amended. For every input, the normalized title contains no digit and no
whole-word occurrence of a promotional word (Free/Deal/Save/Off/Coupon,
case-insensitively); the Echo deal title normalizes to "Amazon Echo Dot !!"
(not "Amazon Echo Dot" — trailing punctuation survives, as can a bare currency
symbol), the catalog record still yields matchScore 1/3 ≥ 1/4, and the
candidate passes all four retention guards. -/
theorem C5_normalize_amended :
    (∀ s : String,
      (∀ c ∈ (cleanTitle s).data, isDigitC c = false) ∧
      noPromoRuns (cleanTitle s).data) ∧
    cleanTitle titleEcho = cleanEcho ∧
    tokenOverlapScore (cleanTitle titleEcho) catalogEcho = 1 / 3 ∧
    (1 / 4 : ℚ) ≤ tokenOverlapScore (cleanTitle titleEcho) catalogEcho ∧
    keepB histEmpty cEcho = true := by
  refine ⟨fun s => ⟨cleanList_noDigit s.data, cleanList_noPromo s.data⟩,
    by decide, matchEcho, ?_, ?_⟩
  · rw [matchEcho]
    norm_num
  · unfold keepB
    simp only [Bool.and_eq_true, decide_eq_true_eq]
    refine ⟨⟨⟨by decide, by decide⟩, by decide⟩, ?_⟩
    rw [cEcho_matchScore]
    norm_num

unseal priceStrip promoStripAux collapseWs in
/-- C5: witness for the amended theorem at the concrete input "A". -/
theorem C5_witness :
    'A' ∈ (cleanTitle "A").data ∧ isDigitC 'A' = false :=
  ⟨by decide, (C5_normalize_amended.1 "A").1 'A' (by decide)⟩

unseal priceStrip promoStripAux collapseWs in
/-- C9: `normalize` (`cleanTitle`) is idempotent — applying it twice gives the
same result as applying it once — it is a total function, and the empty string
normalizes to the empty string. -/
theorem C9_normalize_idempotent :
    (∀ s : String, cleanTitle (cleanTitle s) = cleanTitle s) ∧
    cleanTitle (String.mk []) = String.mk [] := by
  constructor
  · intro s
    show String.mk (cleanList (cleanList s.data)) = String.mk (cleanList s.data)
    rw [cleanList_idem]
  · decide
